import Mathlib

/-!
Verification development for the UCSB catalog scraper
(src/treedegree/scripts/scrape_ucsb_courses.py).

The script is embedded shallowly:

* Python strings are Lean `String`s; the character classes of the regexes
  (`[A-Z]`, `[0-9]`, `\s`) are the Boolean predicates below, restricted to
  the ASCII range actually produced by the catalog pages.
* A parsed HTML document (BeautifulSoup with `html.parser`) is a `Node`
  tree: tags with a name, an optional `id` attribute, a class list and
  children, plus navigable strings.  `get_text(" ", strip=True)` composed
  with `norm_space` — the only way the script ever reads text — equals
  `norm_space` applied to the space-joined raw descendant strings, which is
  how `nodeText` is defined.
* Each regular expression of the script is implemented as an explicit
  matching function with the exact backtracking semantics of Python `re`
  on newline-free input (every call site first applies `norm_space`, whose
  output contains no newline).
* The network is an oracle `fetch : String → Except ε String`; `Except`
  models the exception propagation of `requests.raise_for_status`.
-/

/-! ## Character classes and elementary Python string operations -/

/-- Python regex class of whitespace characters, restricted to ASCII, as
matched by the scraper's patterns and by `str.strip`. -/
def isSpaceCh (c : Char) : Bool :=
  c = ' ' || c = '\t' || c = '\n' || c = '\r' || c = '\x0b' || c = '\x0c'

/-- Regex class `[A-Z]`. -/
def isUpperAZ (c : Char) : Bool := 'A' ≤ c && c ≤ 'Z'

/-- Regex class `[0-9]`. -/
def isDigit09 (c : Char) : Bool := '0' ≤ c && c ≤ '9'

/-- Regex class `[A-Z0-9]`. -/
def isAlnumUp (c : Char) : Bool := isUpperAZ c || isDigit09 c

/-- ASCII lower-casing of one character (`str.lower` on the ASCII labels
the script compares). -/
def lowerCh (c : Char) : Char :=
  if 'A' ≤ c && c ≤ 'Z' then Char.ofNat (c.toNat + 32) else c

/-- ASCII upper-casing of one character (`str.upper`). -/
def upperCh (c : Char) : Char :=
  if 'a' ≤ c && c ≤ 'z' then Char.ofNat (c.toNat - 32) else c

/-- `str.lower`. -/
def lowerStr (s : String) : String := ⟨s.data.map lowerCh⟩

/-- `str.upper`. -/
def upperStr (s : String) : String := ⟨s.data.map upperCh⟩

/-- Remove every trailing whitespace character. -/
def dropTrailingWs (cs : List Char) : List Char :=
  (cs.reverse.dropWhile isSpaceCh).reverse

/-- Python `str.strip()` on a character list. -/
def pyStripL (cs : List Char) : List Char :=
  dropTrailingWs (cs.dropWhile isSpaceCh)

/-- Python `str.strip()`. -/
def pyStrip (s : String) : String := ⟨pyStripL s.data⟩

/-- Python `str.rstrip(":")`: remove every trailing colon. -/
def rstripColon (s : String) : String :=
  ⟨(s.data.reverse.dropWhile (fun c => c = ':')).reverse⟩

/-- Python `str.split(";")` on a character list: split at every semicolon,
keeping empty pieces. -/
def splitSemi : List Char → List (List Char)
  | [] => [[]]
  | c :: rest =>
    if c = ';' then [] :: splitSemi rest
    else
      match splitSemi rest with
      | [] => [[c]]
      | w :: ws => (c :: w) :: ws

/-! ## `norm_space`

The script's `norm_space(s) = re.sub(r"\s+", " ", s).strip()` collapses
every maximal whitespace run to a single blank and strips the ends; this
equals joining the whitespace-separated words of `s` with single blanks. -/

/-- Accumulator pass splitting a character list into its maximal
whitespace-free words; `cur` is the current word, reversed. -/
def splitWordsAux : List Char → List Char → List (List Char)
  | [], cur => if cur.isEmpty then [] else [cur.reverse]
  | c :: rest, cur =>
    if isSpaceCh c then
      if cur.isEmpty then splitWordsAux rest []
      else cur.reverse :: splitWordsAux rest []
    else splitWordsAux rest (c :: cur)

/-- The whitespace-separated words of a character list. -/
def wordsOf (cs : List Char) : List (List Char) := splitWordsAux cs []

/-- Join words with single blanks. -/
def joinWords : List (List Char) → List Char
  | [] => []
  | [w] => w
  | w :: w' :: ws => w ++ ' ' :: joinWords (w' :: ws)

/-- The script's `norm_space` on a character list. -/
def normSpaceL (cs : List Char) : List Char := joinWords (wordsOf cs)

/-- The script's `norm_space`: collapse internal whitespace runs to single
blanks and strip both ends. -/
def norm_space (s : String) : String := ⟨normSpaceL s.data⟩

/-! ### Lemmas about `norm_space` -/

theorem splitWordsAux_mem_not_space (cs : List Char) :
    ∀ cur w, (∀ c ∈ cur, isSpaceCh c = false) → w ∈ splitWordsAux cs cur →
      ∀ c ∈ w, isSpaceCh c = false := by
  induction cs with
  | nil =>
    intro cur w hcur hw c hc
    simp only [splitWordsAux] at hw
    split at hw
    · simp at hw
    · simp only [List.mem_singleton] at hw
      subst hw
      exact hcur c (List.mem_reverse.mp hc)
  | cons a rest ih =>
    intro cur w hcur hw c hc
    simp only [splitWordsAux] at hw
    by_cases ha : isSpaceCh a
    · simp only [ha, if_true] at hw
      split at hw
      · exact ih [] w (by simp) hw c hc
      · rcases List.mem_cons.mp hw with h | h
        · subst h
          exact hcur c (List.mem_reverse.mp hc)
        · exact ih [] w (by simp) h c hc
    · simp only [ha, if_false] at hw
      refine ih (a :: cur) w ?_ hw c hc
      intro x hx
      rcases List.mem_cons.mp hx with h | h
      · subst h; exact eq_false_of_ne_true ha
      · exact hcur x h

theorem splitWordsAux_mem_ne_nil (cs : List Char) :
    ∀ cur w, w ∈ splitWordsAux cs cur → w ≠ [] := by
  induction cs with
  | nil =>
    intro cur w hw
    simp only [splitWordsAux] at hw
    split at hw
    · simp at hw
    · simp only [List.mem_singleton] at hw
      subst hw
      simpa [List.isEmpty_iff] using ‹¬ cur.isEmpty = true›
  | cons a rest ih =>
    intro cur w hw
    simp only [splitWordsAux] at hw
    by_cases ha : isSpaceCh a
    · simp only [ha, if_true] at hw
      split at hw
      · exact ih [] w hw
      · rcases List.mem_cons.mp hw with h | h
        · subst h
          simpa [List.isEmpty_iff] using ‹¬ cur.isEmpty = true›
        · exact ih [] w h
    · simp only [ha, if_false] at hw
      exact ih (a :: cur) w hw

theorem wordsOf_mem_not_space {cs : List Char} {w : List Char}
    (hw : w ∈ wordsOf cs) : ∀ c ∈ w, isSpaceCh c = false :=
  splitWordsAux_mem_not_space cs [] w (by simp) hw

theorem wordsOf_mem_ne_nil {cs : List Char} {w : List Char}
    (hw : w ∈ wordsOf cs) : w ≠ [] :=
  splitWordsAux_mem_ne_nil cs [] w hw

theorem joinWords_ne_nil {ws : List (List Char)} (h : ws ≠ [])
    (h1 : ∀ w ∈ ws, w ≠ []) : joinWords ws ≠ [] := by
  match ws with
  | [] => exact absurd rfl h
  | [w] => simpa [joinWords] using h1 w (by simp)
  | w :: w' :: rest =>
    have : w ≠ [] := h1 w (by simp)
    simp only [joinWords]
    intro hcon
    rcases List.append_eq_nil.mp hcon with ⟨h2, _⟩
    exact this h2

theorem mem_of_getLast?_eq {α : Type} : ∀ {l : List α} {x : α}, l.getLast? = some x → x ∈ l
  | [], x, h => by simp at h
  | [a], x, h => by
    simp only [List.getLast?_singleton, Option.some.injEq] at h
    simp [h]
  | a :: b :: t, x, h => by
    rw [List.getLast?_cons_cons] at h
    exact List.mem_cons_of_mem a (mem_of_getLast?_eq h)

theorem chain'_of_not_space : ∀ {w : List Char}, (∀ c ∈ w, isSpaceCh c = false) →
    List.Chain' (fun a b => ¬(a = ' ' ∧ b = ' ')) w
  | [], _ => List.chain'_nil
  | [a], _ => List.chain'_singleton a
  | a :: b :: t, h => by
    rw [List.chain'_cons]
    refine ⟨fun hc => ?_, chain'_of_not_space (fun c hc => h c (List.mem_cons_of_mem a hc))⟩
    have := h a (by simp)
    rw [hc.1] at this
    simp [isSpaceCh] at this

theorem joinWords_props : ∀ ws : List (List Char), (∀ w ∈ ws, w ≠ []) →
    (∀ w ∈ ws, ∀ c ∈ w, isSpaceCh c = false) →
    (∀ c ∈ joinWords ws, isSpaceCh c = true → c = ' ') ∧
    List.Chain' (fun a b => ¬(a = ' ' ∧ b = ' ')) (joinWords ws) ∧
    (∀ c, (joinWords ws).head? = some c → isSpaceCh c = false) ∧
    (∀ c, (joinWords ws).getLast? = some c → isSpaceCh c = false)
  | [], _, _ => by simp [joinWords, List.chain'_nil]
  | [w], hn, hs => by
    refine ⟨fun c hc hsp => absurd hsp ?_, chain'_of_not_space (hs w (by simp)), ?_, ?_⟩
    · simp [joinWords] at hc
      simp [hs w (by simp) c hc]
    · intro c hc
      simp only [joinWords] at hc
      exact hs w (by simp) c (List.mem_of_mem_head? hc)
    · intro c hc
      simp only [joinWords] at hc
      exact hs w (by simp) c (mem_of_getLast?_eq hc)
  | w :: w' :: ws, hn, hs => by
    have ihn : ∀ v ∈ w' :: ws, v ≠ [] := fun v hv => hn v (List.mem_cons_of_mem w hv)
    have ihs : ∀ v ∈ w' :: ws, ∀ c ∈ v, isSpaceCh c = false :=
      fun v hv => hs v (List.mem_cons_of_mem w hv)
    obtain ⟨ih1, ih2, ih3, ih4⟩ := joinWords_props (w' :: ws) ihn ihs
    have hJne : joinWords (w' :: ws) ≠ [] := joinWords_ne_nil (by simp) ihn
    have hwns : ∀ c ∈ w, isSpaceCh c = false := hs w (by simp)
    have hwne : w ≠ [] := hn w (by simp)
    simp only [joinWords]
    refine ⟨?_, ?_, ?_, ?_⟩
    · intro c hc hsp
      rcases List.mem_append.mp hc with h | h
      · exact absurd hsp (by simp [hwns c h])
      · rcases List.mem_cons.mp h with h | h
        · exact h
        · exact ih1 c h hsp
    · rw [List.chain'_append]
      refine ⟨chain'_of_not_space hwns, ?_, ?_⟩
      · match hJ : joinWords (w' :: ws) with
        | [] => exact absurd hJ hJne
        | j :: t =>
          rw [List.chain'_cons]
          refine ⟨fun hc => ?_, by rw [hJ] at ih2; exact ih2⟩
          have := ih3 j (by rw [hJ]; rfl)
          rw [hc.2] at this
          simp [isSpaceCh] at this
      · intro x hx y hy
        simp only [List.head?_cons, Option.mem_def, Option.some.injEq] at hy
        intro hc
        have hxw : x ∈ w := mem_of_getLast?_eq (Option.mem_def.mp hx)
        have := hwns x hxw
        rw [hc.1] at this
        simp [isSpaceCh] at this
    · intro c hc
      obtain ⟨a, t, rfl⟩ := List.exists_cons_of_ne_nil hwne
      simp only [List.cons_append, List.head?_cons, Option.some.injEq] at hc
      subst hc
      exact hwns a (by simp)
    · intro c hc
      rw [List.getLast?_append_of_ne_nil _ (by simp)] at hc
      obtain ⟨j, t, hJ⟩ := List.exists_cons_of_ne_nil hJne
      rw [hJ, List.getLast?_cons_cons] at hc
      exact ih4 c (by rw [hJ]; exact hc)

theorem normSpaceL_blank_only {cs : List Char} :
    ∀ c ∈ normSpaceL cs, isSpaceCh c = true → c = ' ' :=
  (joinWords_props (wordsOf cs) (fun _ hw => wordsOf_mem_ne_nil hw)
    (fun _ hw => wordsOf_mem_not_space hw)).1

theorem normSpaceL_chain' (cs : List Char) :
    List.Chain' (fun a b => ¬(a = ' ' ∧ b = ' ')) (normSpaceL cs) :=
  (joinWords_props (wordsOf cs) (fun _ hw => wordsOf_mem_ne_nil hw)
    (fun _ hw => wordsOf_mem_not_space hw)).2.1

theorem normSpaceL_head_not_space {cs : List Char} {c : Char}
    (h : (normSpaceL cs).head? = some c) : isSpaceCh c = false :=
  (joinWords_props (wordsOf cs) (fun _ hw => wordsOf_mem_ne_nil hw)
    (fun _ hw => wordsOf_mem_not_space hw)).2.2.1 c h

theorem normSpaceL_getLast_not_space {cs : List Char} {c : Char}
    (h : (normSpaceL cs).getLast? = some c) : isSpaceCh c = false :=
  (joinWords_props (wordsOf cs) (fun _ hw => wordsOf_mem_ne_nil hw)
    (fun _ hw => wordsOf_mem_not_space hw)).2.2.2 c h

/-! ### Equations for `wordsOf` -/

theorem wordsOf_cons_space {c : Char} (rest : List Char) (h : isSpaceCh c = true) :
    wordsOf (c :: rest) = wordsOf rest := by
  simp [wordsOf, splitWordsAux, h]

theorem splitWordsAux_cons_spec :
    ∀ (rest : List Char) (c : Char) (cur : List Char),
      splitWordsAux rest (c :: cur) =
        ((c :: cur).reverse ++ rest.takeWhile (fun x => !isSpaceCh x)) ::
          wordsOf (rest.dropWhile (fun x => !isSpaceCh x)) := by
  intro rest
  induction rest with
  | nil => intro c cur; simp [splitWordsAux, wordsOf]
  | cons d r ih =>
    intro c cur
    by_cases hd : isSpaceCh d
    · have e1 : List.takeWhile (fun x => !isSpaceCh x) (d :: r) = [] := by
        simp [List.takeWhile_cons, hd]
      have e2 : List.dropWhile (fun x => !isSpaceCh x) (d :: r) = d :: r := by
        simp [List.dropWhile_cons, hd]
      rw [e1, e2, wordsOf_cons_space r hd, List.append_nil]
      simp [splitWordsAux, hd, wordsOf]
    · have e1 : List.takeWhile (fun x => !isSpaceCh x) (d :: r) =
          d :: List.takeWhile (fun x => !isSpaceCh x) r := by
        simp [List.takeWhile_cons, hd]
      have e2 : List.dropWhile (fun x => !isSpaceCh x) (d :: r) =
          List.dropWhile (fun x => !isSpaceCh x) r := by
        simp [List.dropWhile_cons, hd]
      rw [e1, e2]
      have : splitWordsAux (d :: r) (c :: cur) = splitWordsAux r (d :: c :: cur) := by
        simp [splitWordsAux, hd]
      rw [this, ih d (c :: cur)]
      congr 1
      simp

theorem wordsOf_cons_not_space {c : Char} (rest : List Char) (h : isSpaceCh c = false) :
    wordsOf (c :: rest) =
      (c :: rest.takeWhile (fun x => !isSpaceCh x)) ::
        wordsOf (rest.dropWhile (fun x => !isSpaceCh x)) := by
  have : wordsOf (c :: rest) = splitWordsAux rest [c] := by
    simp [wordsOf, splitWordsAux, h]
  rw [this, splitWordsAux_cons_spec rest c []]
  rfl

theorem splitWordsAux_ne_nil_of_cur (cs : List Char) :
    ∀ cur, cur ≠ [] → splitWordsAux cs cur ≠ [] := by
  induction cs with
  | nil =>
    intro cur h
    simp only [splitWordsAux]
    rw [if_neg (by simpa [List.isEmpty_iff] using h)]
    simp
  | cons a rest ih =>
    intro cur h
    simp only [splitWordsAux]
    by_cases ha : isSpaceCh a
    · rw [if_pos ha, if_neg (by simpa [List.isEmpty_iff] using h)]
      simp
    · rw [if_neg ha]
      exact ih (a :: cur) (by simp)

theorem wordsOf_ne_nil {cs : List Char} {c : Char} (hc : c ∈ cs)
    (hns : isSpaceCh c = false) : wordsOf cs ≠ [] := by
  induction cs with
  | nil => simp at hc
  | cons a rest ih =>
    rcases List.mem_cons.mp hc with h | h
    · subst h
      rw [wordsOf_cons_not_space rest hns]
      simp
    · by_cases ha : isSpaceCh a
      · rw [wordsOf_cons_space rest ha]
        exact ih h
      · rw [wordsOf_cons_not_space rest (eq_false_of_ne_true ha)]
        simp

theorem normSpaceL_ne_nil {cs : List Char} {c : Char} (hc : c ∈ cs)
    (hns : isSpaceCh c = false) : normSpaceL cs ≠ [] :=
  joinWords_ne_nil (wordsOf_ne_nil hc hns) (fun _ hw => wordsOf_mem_ne_nil hw)

/-! ### `wordsOf` ignores leading and trailing whitespace -/

theorem wordsOf_dropWhile_space (cs : List Char) :
    wordsOf (cs.dropWhile isSpaceCh) = wordsOf cs := by
  induction cs with
  | nil => rfl
  | cons a rest ih =>
    by_cases ha : isSpaceCh a
    · rw [List.dropWhile_cons, if_pos ha, ih, wordsOf_cons_space rest ha]
    · rw [List.dropWhile_cons, if_neg (by simp [ha])]

theorem splitWordsAux_all_spaces : ∀ {sp : List Char}, (∀ c ∈ sp, isSpaceCh c = true) →
    ∀ cur, splitWordsAux sp cur = if cur.isEmpty then [] else [cur.reverse]
  | [], _, cur => rfl
  | d :: r, hsp, cur => by
    have hd : isSpaceCh d = true := hsp d (by simp)
    have ihr := splitWordsAux_all_spaces (fun c h => hsp c (List.mem_cons_of_mem d h))
    simp only [splitWordsAux, hd, if_true]
    by_cases hc : cur.isEmpty
    · rw [if_pos hc, ihr [], if_pos hc]
      rfl
    · rw [if_neg hc, ihr [], if_neg hc]
      rfl

theorem splitWordsAux_append_spaces {sp : List Char} (hsp : ∀ c ∈ sp, isSpaceCh c = true) :
    ∀ (cs : List Char) (cur : List Char), splitWordsAux (cs ++ sp) cur = splitWordsAux cs cur := by
  intro cs
  induction cs with
  | nil =>
    intro cur
    simp only [List.nil_append]
    rw [splitWordsAux_all_spaces hsp cur]
    rfl
  | cons a rest ih =>
    intro cur
    simp only [List.cons_append, splitWordsAux]
    by_cases ha : isSpaceCh a
    · rw [if_pos ha, if_pos ha]
      by_cases hc : cur.isEmpty
      · rw [if_pos hc, if_pos hc]
        exact ih []
      · rw [if_neg hc, if_neg hc]
        exact congrArg _ (ih [])
    · rw [if_neg ha, if_neg ha]
      exact ih (a :: cur)

theorem wordsOf_dropTrailing (cs : List Char) :
    wordsOf (dropTrailingWs cs) = wordsOf cs := by
  have hdecomp : cs = dropTrailingWs cs ++ (cs.reverse.takeWhile isSpaceCh).reverse := by
    conv_lhs => rw [← List.reverse_reverse cs,
      ← List.takeWhile_append_dropWhile isSpaceCh cs.reverse]
    rw [List.reverse_append]
    rfl
  conv_rhs => rw [hdecomp]
  exact (splitWordsAux_append_spaces
    (fun c h => List.mem_takeWhile_imp (List.mem_reverse.mp h)) (dropTrailingWs cs) []).symm

theorem normSpaceL_pyStripL (cs : List Char) : normSpaceL (pyStripL cs) = normSpaceL cs := by
  unfold pyStripL normSpaceL
  rw [wordsOf_dropTrailing, wordsOf_dropWhile_space]

theorem head_dropWhile_false {α : Type} {p : α → Bool} {l : List α} {c : α}
    (h : (l.dropWhile p).head? = some c) : p c = false := by
  have := List.head?_dropWhile_not p l
  rw [h] at this
  exact this

theorem dropTrailingWs_le (v : List Char) : dropTrailingWs v <+: v := by
  have h1 : v.reverse.dropWhile isSpaceCh <:+ v.reverse := List.dropWhile_suffix isSpaceCh
  have := Iff.mpr List.reverse_prefix h1
  rwa [List.reverse_reverse] at this

theorem pyStripL_head_not_space {cs : List Char} {c : Char}
    (h : (pyStripL cs).head? = some c) : isSpaceCh c = false := by
  obtain ⟨t, ht⟩ := dropTrailingWs_le (cs.dropWhile isSpaceCh)
  have hne : pyStripL cs ≠ [] := by
    intro hcon
    rw [hcon] at h
    simp at h
  obtain ⟨d, u, hdu⟩ := List.exists_cons_of_ne_nil hne
  rw [hdu] at h
  simp only [List.head?_cons, Option.some.injEq] at h
  subst h
  rw [pyStripL] at hdu
  rw [hdu] at ht
  apply head_dropWhile_false (l := cs) (p := isSpaceCh)
  rw [← ht]
  rfl

theorem pyStripL_getLast_not_space {cs : List Char} {c : Char}
    (h : (pyStripL cs).getLast? = some c) : isSpaceCh c = false := by
  have hrev : (pyStripL cs).reverse = (cs.dropWhile isSpaceCh).reverse.dropWhile isSpaceCh := by
    rw [pyStripL, dropTrailingWs, List.reverse_reverse]
  rw [← List.head?_reverse, hrev] at h
  exact head_dropWhile_false h

theorem normSpaceL_fix_aux : ∀ (n : Nat) (cs : List Char), cs.length ≤ n →
    (∀ c ∈ cs, isSpaceCh c = true → c = ' ') →
    List.Chain' (fun a b => ¬(a = ' ' ∧ b = ' ')) cs →
    (∀ c, cs.head? = some c → isSpaceCh c = false) →
    (∀ c, cs.getLast? = some c → isSpaceCh c = false) →
    normSpaceL cs = cs := by
  intro n
  induction n with
  | zero =>
    intro cs hlen _ _ _ _
    rw [List.length_eq_zero.mp (Nat.le_zero.mp hlen)]
    rfl
  | succ n ih =>
    intro cs hlen hb hch hh hl
    cases cs with
    | nil => rfl
    | cons c rest =>
      have hc : isSpaceCh c = false := hh c rfl
      have hra : rest = rest.takeWhile (fun x => !isSpaceCh x) ++
          rest.dropWhile (fun x => !isSpaceCh x) :=
        (List.takeWhile_append_dropWhile _ _).symm
      rw [normSpaceL, wordsOf_cons_not_space rest hc]
      cases hR : rest.dropWhile (fun x => !isSpaceCh x) with
      | nil =>
        have hA : rest = rest.takeWhile (fun x => !isSpaceCh x) := by
          conv_lhs => rw [hra]
          rw [hR, List.append_nil]
        show c :: rest.takeWhile (fun x => !isSpaceCh x) = c :: rest
        rw [← hA]
      | cons e r2 =>
        have h1 : (rest.dropWhile (fun x => !isSpaceCh x)).head? = some e := by
          rw [hR]; rfl
        have he : isSpaceCh e = true := by
          have := head_dropWhile_false h1
          simpa using this
        have heRest : e ∈ rest := by
          refine ((List.dropWhile_suffix (fun x => !isSpaceCh x)).isInfix).subset ?_
          rw [hR]; simp
        have he' : e = ' ' := hb e (List.mem_cons_of_mem c heRest) he
        have hrest : rest = rest.takeWhile (fun x => !isSpaceCh x) ++ ' ' :: r2 := by
          conv_lhs => rw [hra]
          rw [hR, he']
        have hr2ne : r2 ≠ [] := by
          intro hcon
          rw [hcon] at hrest
          have hlast : (c :: rest).getLast? = some ' ' := by
            have heq : c :: rest = (c :: rest.takeWhile (fun x => !isSpaceCh x)) ++ [' '] := by
              conv_lhs => rw [hrest]
              simp
            rw [heq, List.getLast?_append_of_ne_nil _ (by simp)]
            rfl
          have := hl ' ' hlast
          simp [isSpaceCh] at this
        obtain ⟨d, r3, hd⟩ := List.exists_cons_of_ne_nil hr2ne
        have hdns : isSpaceCh d = false := by
          by_contra hcon
          have hdsp : isSpaceCh d = true := by
            cases hv : isSpaceCh d
            · exact absurd hv hcon
            · rfl
          have hdMem : d ∈ c :: rest := by
            rw [hrest, hd]
            simp
          have hd' : d = ' ' := hb d hdMem hdsp
          have hpair : [' ', d] <:+: c :: rest := by
            refine ⟨c :: rest.takeWhile (fun x => !isSpaceCh x), r3, ?_⟩
            conv_rhs => rw [hrest, hd]
            simp
          have hch2 := List.Chain'.infix hch hpair
          rw [List.chain'_cons] at hch2
          exact hch2.1 ⟨rfl, hd'⟩
        have hinf : r2 <:+: c :: rest := by
          refine ⟨(c :: rest.takeWhile (fun x => !isSpaceCh x)) ++ [' '], [], ?_⟩
          conv_rhs => rw [hrest]
          simp
        have hlen2 : r2.length ≤ n := by
          have hlr := congrArg List.length hrest
          simp only [List.length_append, List.length_cons] at hlr
          simp only [List.length_cons] at hlen
          omega
        have hr2fix : normSpaceL r2 = r2 := by
          apply ih r2 hlen2
          · exact fun x hx hsp => hb x (hinf.subset hx) hsp
          · exact List.Chain'.infix hch hinf
          · intro x hx
            rw [hd] at hx
            simp only [List.head?_cons, Option.some.injEq] at hx
            subst hx
            exact hdns
          · intro x hx
            apply hl x
            have heq : c :: rest = ((c :: rest.takeWhile (fun x => !isSpaceCh x)) ++ [' ']) ++ r2 := by
              conv_lhs => rw [hrest]
              simp
            rw [heq, List.getLast?_append_of_ne_nil _ hr2ne]
            exact hx
        have hwne : wordsOf r2 ≠ [] := by
          rw [hd, wordsOf_cons_not_space r3 hdns]
          simp
        obtain ⟨w1, ws1, hw1⟩ := List.exists_cons_of_ne_nil hwne
        rw [he', wordsOf_cons_space r2 (by decide), hw1]
        show (c :: rest.takeWhile (fun x => !isSpaceCh x)) ++
            ' ' :: joinWords (w1 :: ws1) = c :: rest
        rw [← hw1]
        have hjr : joinWords (wordsOf r2) = r2 := hr2fix
        rw [hjr, List.cons_append, ← hrest]

theorem pyStripL_eq_normSpaceL {cs : List Char}
    (hb : ∀ c ∈ cs, isSpaceCh c = true → c = ' ')
    (hch : List.Chain' (fun a b => ¬(a = ' ' ∧ b = ' ')) cs) :
    pyStripL cs = normSpaceL cs := by
  have hfrag : pyStripL cs <:+: cs :=
    ((dropTrailingWs_le (cs.dropWhile isSpaceCh)).isInfix).trans
      ((List.dropWhile_suffix isSpaceCh).isInfix)
  have hfix : normSpaceL (pyStripL cs) = pyStripL cs := by
    apply normSpaceL_fix_aux (pyStripL cs).length (pyStripL cs) le_rfl
    · exact fun c hcmem hsp => hb c (hfrag.subset hcmem) hsp
    · exact List.Chain'.infix hch hfrag
    · exact fun c hc => pyStripL_head_not_space hc
    · exact fun c hc => pyStripL_getLast_not_space hc
  rw [← normSpaceL_pyStripL cs, hfix]

/-! ### Tidy character lists

A character list is tidy when its only whitespace is the blank and no two
blanks are adjacent; `norm_space` output is tidy, tidiness passes to
contiguous fragments, and on tidy lists `str.strip` agrees with
`norm_space`. -/

def tidyL (cs : List Char) : Prop :=
  (∀ c ∈ cs, isSpaceCh c = true → c = ' ') ∧
    List.Chain' (fun a b => ¬(a = ' ' ∧ b = ' ')) cs

theorem tidyL_frag {l₁ l₂ : List Char} (h2 : tidyL l₂) (h : l₁ <:+: l₂) : tidyL l₁ :=
  ⟨fun c hc => h2.1 c (h.subset hc), List.Chain'.infix h2.2 h⟩

theorem tidyL_normSpaceL (cs : List Char) : tidyL (normSpaceL cs) :=
  ⟨fun c hc => normSpaceL_blank_only c hc, normSpaceL_chain' cs⟩

theorem pyStripL_of_tidy {cs : List Char} (h : tidyL cs) : pyStripL cs = normSpaceL cs :=
  pyStripL_eq_normSpaceL h.1 h.2

/-! ### Pieces of a semicolon split are contiguous fragments -/

theorem splitSemi_head_le : ∀ cs : List Char, ∃ w ws,
    splitSemi cs = w :: ws ∧ w <+: cs
  | [] => ⟨[], [], rfl, List.nil_prefix⟩
  | c :: rest => by
    by_cases hc : c = ';'
    · exact ⟨[], splitSemi rest, by simp [splitSemi, hc], List.nil_prefix⟩
    · obtain ⟨w0, ws0, hsplit, hpre⟩ := splitSemi_head_le rest
      refine ⟨c :: w0, ws0, ?_, ?_⟩
      · simp [splitSemi, hc, hsplit]
      · exact List.cons_prefix_cons.mpr ⟨rfl, hpre⟩

theorem frag_cons {α : Type} {l₁ l₂ : List α} {a : α}
    (h : l₁ <:+: l₂) : l₁ <:+: a :: l₂ := by
  obtain ⟨pre, post, hp⟩ := h
  exact ⟨a :: pre, post, by rw [← hp]; rfl⟩

theorem splitSemi_mem_frag : ∀ (cs : List Char) (w : List Char),
    w ∈ splitSemi cs → w <:+: cs
  | [], w, hw => by
    simp only [splitSemi, List.mem_singleton] at hw
    subst hw
    exact List.nil_infix
  | c :: rest, w, hw => by
    by_cases hc : c = ';'
    · have hs : splitSemi (c :: rest) = [] :: splitSemi rest := by
        simp [splitSemi, hc]
      rw [hs] at hw
      rcases List.mem_cons.mp hw with h | h
      · subst h
        exact List.nil_infix
      · exact frag_cons (splitSemi_mem_frag rest w h)
    · obtain ⟨w0, ws0, hsplit, hpre⟩ := splitSemi_head_le rest
      have hs : splitSemi (c :: rest) = (c :: w0) :: ws0 := by
        simp [splitSemi, hc, hsplit]
      rw [hs] at hw
      rcases List.mem_cons.mp hw with h | h
      · subst h
        exact (List.cons_prefix_cons.mpr ⟨rfl, hpre⟩).isInfix
      · have hmem : w ∈ splitSemi rest := by
          rw [hsplit]
          exact List.mem_cons_of_mem _ h
        exact frag_cons (splitSemi_mem_frag rest w hmem)

/-! ## The HTML document model

A node of the parsed document: either a navigable string or a tag with
its name, optional `id` attribute, class list and children.  Only these
two kinds of nodes occur in the catalog pages the script reads. -/

inductive Node where
  | text : String → Node
  | elem : String → Option String → List String → List Node → Node

mutual

/-- Raw descendant strings of a node, in document order
(BeautifulSoup `_all_strings`). -/
def rawTexts : Node → List String
  | .text s => [s]
  | .elem _ _ _ ch => rawTextsList ch

def rawTextsList : List Node → List String
  | [] => []
  | c :: rest => rawTexts c ++ rawTextsList rest

end

/-- The script only ever reads `norm_space(x.get_text(" ", strip=True))`;
that composition equals `norm_space` of the blank-joined raw descendant
strings (stripping each piece and dropping empty pieces changes nothing
once the result is whitespace-normalized), which is how text is read
here. -/
def nodeText (n : Node) : String := norm_space (String.intercalate " " (rawTexts n))

/-- Tag-name test (`find("b")`, `find_all("strong")`, …). -/
def isElemNamed (nm : String) : Node → Bool
  | .text _ => false
  | .elem n _ _ _ => n = nm

/-- CSS class test (`span.CourseIdAndTitle`, `div.CourseDisplay`, …). -/
def hasClass (cls : String) : Node → Bool
  | .text _ => false
  | .elem _ _ classes _ => classes.contains cls

/-- CSS attribute test `[id$='suffix']`. -/
def idEndsWith (sfx : String) : Node → Bool
  | .text _ => false
  | .elem _ none _ _ => false
  | .elem _ (some i) _ _ => sfx.data.isSuffixOf i.data

mutual

/-- First strict descendant satisfying `p`, in document order
(`select_one` / `find`). -/
def findFirst (p : Node → Bool) : Node → Option Node
  | .text _ => none
  | .elem _ _ _ ch => findFirstList p ch

def findFirstList (p : Node → Bool) : List Node → Option Node
  | [] => none
  | c :: rest =>
    if p c then some c
    else
      match findFirst p c with
      | some x => some x
      | none => findFirstList p rest

end

mutual

/-- All strict descendants satisfying `p`, in document order (`find_all`,
`select`). -/
def findAll (p : Node → Bool) : Node → List Node
  | .text _ => []
  | .elem _ _ _ ch => findAllList p ch

def findAllList (p : Node → Bool) : List Node → List Node
  | [] => []
  | c :: rest => (if p c then [c] else []) ++ findAll p c ++ findAllList p rest

end

mutual

/-- All strict descendant `strong` tags, each with its list of following
siblings (`find_all("strong")` together with `next_siblings`). -/
def strongsWithSibs : Node → List (Node × List Node)
  | .text _ => []
  | .elem _ _ _ ch => strongsWithSibsList ch

def strongsWithSibsList : List Node → List (Node × List Node)
  | [] => []
  | c :: rest =>
    (if isElemNamed "strong" c then [(c, rest)] else [])
      ++ strongsWithSibs c ++ strongsWithSibsList rest

end

mutual

/-- All `div.CourseDisplay` descendants of a node, each with its ancestor
chain (innermost first), in document order: `soup.select("div.CourseDisplay")`
plus the `parents` iteration used by `find_level_group`. -/
def courseDisplaysIn (anc : List Node) : Node → List (Node × List Node)
  | .text _ => []
  | .elem nm i cls ch => courseDisplaysList (.elem nm i cls ch :: anc) ch

def courseDisplaysList (anc : List Node) : List Node → List (Node × List Node)
  | [] => []
  | c :: rest =>
    (if isElemNamed "div" c && hasClass "CourseDisplay" c then [(c, anc)] else [])
      ++ courseDisplaysIn anc c ++ courseDisplaysList anc rest

end

/-! ## The script's regular expressions

Each pattern is implemented as an explicit matcher with the backtracking
semantics of Python `re` on newline-free input (all call sites normalize
whitespace first, so no newline ever reaches a matcher). -/

/-- Test of the number group `[0-9]{1,3}[A-Z0-9]{0,6}` against a maximal
alphanumeric run `num` followed by `\s*\.` (or `\s*$`): the run matches
exactly when some split into 1–3 leading digits plus at most 6 further
alphanumerics covers all of it, i.e. when it starts with a digit and
`num.length ≤ min 3 d + 6` for `d` its leading-digit count. -/
def numberRunOK (num : List Char) : Bool :=
  let digs := num.takeWhile isDigit09
  decide (0 < digs.length) && decide (num.length ≤ min 3 digs.length + 6)

/-- Python `COURSE_HEADER_RE.match`, the anchored pattern
`^\s*([A-Z]{2,10})\s+([0-9]{1,3}[A-Z0-9]{0,6})\s*\.\s*(.+?)\s*$`.
The lazy third group is the remainder after the dot with surrounding
whitespace stripped; when that remainder is pure whitespace the lazy
group backtracks to a single blank (checked against CPython:
`"AB 12.  "` matches with third group `" "`). -/
def titleGroupTail (r5 : List Char) : Option (List Char) :=
  let r6 := r5.dropWhile isSpaceCh
  if r6.isEmpty then
    if (r5.takeWhile isSpaceCh).isEmpty then none else some [' ']
  else some (dropTrailingWs r6)

def courseHeaderMatch (s : String) : Option (String × String × String) :=
  let cs := s.data.dropWhile isSpaceCh
  let subj := cs.takeWhile isUpperAZ
  let r1 := cs.dropWhile isUpperAZ
  if subj.length < 2 || 10 < subj.length then none
  else if (r1.takeWhile isSpaceCh).isEmpty then none
  else
    let r2 := r1.dropWhile isSpaceCh
    let num := r2.takeWhile isAlnumUp
    let r3 := r2.dropWhile isAlnumUp
    if !numberRunOK num then none
    else
      match r3.dropWhile isSpaceCh with
      | '.' :: r5 => (titleGroupTail r5).map (fun t => (⟨subj⟩, ⟨num⟩, ⟨t⟩))
      | _ => none

/-- Python `COURSE_CODE_ONLY_RE.match`, the anchored pattern
`^\s*([A-Z]{2,10})\s+([0-9]{1,3}[A-Z0-9]{0,6})\s*$`. -/
def courseCodeOnlyMatch (s : String) : Option (String × String) :=
  let cs := s.data.dropWhile isSpaceCh
  let subj := cs.takeWhile isUpperAZ
  let r1 := cs.dropWhile isUpperAZ
  if subj.length < 2 || 10 < subj.length then none
  else if (r1.takeWhile isSpaceCh).isEmpty then none
  else
    let r2 := r1.dropWhile isSpaceCh
    let num := r2.takeWhile isAlnumUp
    let r3 := r2.dropWhile isAlnumUp
    if !numberRunOK num then none
    else if (r3.dropWhile isSpaceCh).isEmpty then some (⟨subj⟩, ⟨num⟩) else none

/-- Lazy title scan of strategy 3's `([^()]+?)\s*(\(|$)`: the shortest
non-empty parenthesis-free prefix whose remainder is whitespace followed
by an opening parenthesis or the end; `none` when a closing parenthesis
blocks every candidate. -/
def scanTitle : List Char → Option (List Char)
  | [] => none
  | c :: rest =>
    if c = '(' || c = ')' then none
    else if (rest.dropWhile isSpaceCh).isEmpty || (rest.dropWhile isSpaceCh).head? = some '('
    then some [c]
    else (scanTitle rest).map (fun t => c :: t)

/-- Third group of strategy 3 after the dot: like `titleGroupTail`, but the
group class is `[^()]` and the stop is `\s*(\(|$)`; when the remainder
starts (after whitespace) with an opening parenthesis the lazy group
backtracks to a single blank (checked against CPython:
`"AB 12. (4) X"` matches with third group `" "`). -/
def titleSearchTail (r5 : List Char) : Option (List Char) :=
  let lead := r5.takeWhile isSpaceCh
  let r6 := r5.dropWhile isSpaceCh
  match r6 with
  | [] => if lead.isEmpty then none else some [' ']
  | c :: _ =>
    if c = '(' then (if lead.isEmpty then none else some [' '])
    else scanTitle r6

/-- One anchored attempt of strategy 3's pattern
`([A-Z]{2,10})\s+([0-9]{1,3}[A-Z0-9]{0,6})\s*\.\s*([^()]+?)\s*(\(|$)`
at a fixed start position. -/
def headerSearchAttempt (cs : List Char) : Option (String × String × List Char) :=
  let subj := cs.takeWhile isUpperAZ
  let r1 := cs.dropWhile isUpperAZ
  if subj.length < 2 || 10 < subj.length then none
  else if (r1.takeWhile isSpaceCh).isEmpty then none
  else
    let r2 := r1.dropWhile isSpaceCh
    let num := r2.takeWhile isAlnumUp
    let r3 := r2.dropWhile isAlnumUp
    if !numberRunOK num then none
    else
      match r3.dropWhile isSpaceCh with
      | '.' :: r5 => (titleSearchTail r5).map (fun t => (⟨subj⟩, ⟨num⟩, t))
      | _ => none

/-- Python `re.search` of strategy 3's pattern: the attempt at the
leftmost start position where it succeeds. -/
def headerSearch : List Char → Option (String × String × List Char)
  | [] => none
  | c :: rest =>
    match headerSearchAttempt (c :: rest) with
    | some x => some x
    | none => headerSearch rest

/-- Python `re.match(r"^\(([^)]+)\)\s*(.*)$", txt)` of
`parse_units_and_instructors`: a leading parenthesized group with
non-empty content up to the first closing parenthesis, and the remainder
with leading whitespace dropped. -/
def parenPrefixMatch : List Char → Option (List Char × List Char)
  | '(' :: rest =>
    match rest.dropWhile (fun c => !(c = ')')) with
    | ')' :: after =>
      if (rest.takeWhile (fun c => !(c = ')'))).isEmpty then none
      else some (rest.takeWhile (fun c => !(c = ')')), after.dropWhile isSpaceCh)
    | _ => none
  | _ => none

/-! ## Substring test (Python `in` on strings) -/

def listHasSub (nd : List Char) : List Char → Bool
  | [] => nd.isEmpty
  | c :: rest => nd.isPrefixOf (c :: rest) || listHasSub nd rest

/-- Python `needle in hay` for strings. -/
def containsStr (hay needle : String) : Bool := listHasSub needle.data hay.data

/-! ## The script's functions -/

/-- `find_level_group`: walk the ancestors (innermost first) and classify
the first one whose lower-cased `id` contains a division marker. -/
def find_level_group : List Node → Option String
  | [] => none
  | Node.text _ :: rest => find_level_group rest
  | Node.elem _ i _ _ :: rest =>
    let pid := lowerStr (i.getD "")
    if containsStr pid "rptrlowerdivisioncourses" then some "Lower Division"
    else if containsStr pid "rptrupperdivisioncourses" then some "Upper Division"
    else if containsStr pid "rptrgraduatedivisioncourses" then some "Graduate Division"
    else find_level_group rest

/-- `course_div.select_one("span.InstructorUnits")`. -/
def instrSpan (b : Node) : Option Node :=
  findFirst (fun n => isElemNamed "span" n && hasClass "InstructorUnits" n) b

/-- The instructors list of `parse_units_and_instructors`: the STAFF
special case, else `[norm_space(x) for x in instructors_txt.split(";") if
norm_space(x)]`. -/
def instructorList (instructorsTxt : String) : List String :=
  if instructorsTxt = "" then []
  else if upperStr instructorsTxt = "STAFF" then ["STAFF"]
  else ((splitSemi instructorsTxt.data).map (fun w => norm_space ⟨w⟩)).filter
    (fun x => !(x = ""))

/-- `parse_units_and_instructors`. -/
def parse_units_and_instructors (b : Node) : Option String × List String :=
  match instrSpan b with
  | none => (none, [])
  | some sp =>
    let txt := nodeText sp
    match parenPrefixMatch txt.data with
    | some (g1, g2) => (some (norm_space ⟨g1⟩), instructorList (norm_space ⟨g2⟩))
    | none => (none, instructorList txt)

/-- Canonical output fields of `extract_labeled_fields`. -/
inductive FieldKey where
  | prereqK | recPrepK | enrollK | repeatK | crossK
deriving DecidableEq

/-- The `wanted` label dictionary of `extract_labeled_fields`. -/
def wantedKey (label : String) : Option FieldKey :=
  if label = "prerequisite" then some .prereqK
  else if label = "prerequisites" then some .prereqK
  else if label = "recommended preparation" then some .recPrepK
  else if label = "enrollment comments" then some .enrollK
  else if label = "repeat comments" then some .repeatK
  else if label = "cross-listed" then some .crossK
  else if label = "crosslisted" then some .crossK
  else none

/-- The `out` dictionary of `extract_labeled_fields`. -/
structure LabeledFields where
  prerequisites_raw : Option String
  recommended_preparation_raw : Option String
  enrollment_comments_raw : Option String
  repeat_comments_raw : Option String
  cross_listed_raw : Option String
deriving DecidableEq

def emptyLabeled : LabeledFields := ⟨none, none, none, none, none⟩

def LabeledFields.get (f : LabeledFields) : FieldKey → Option String
  | .prereqK => f.prerequisites_raw
  | .recPrepK => f.recommended_preparation_raw
  | .enrollK => f.enrollment_comments_raw
  | .repeatK => f.repeat_comments_raw
  | .crossK => f.cross_listed_raw

def LabeledFields.set (f : LabeledFields) : FieldKey → String → LabeledFields
  | .prereqK, v => { f with prerequisites_raw := some v }
  | .recPrepK, v => { f with recommended_preparation_raw := some v }
  | .enrollK, v => { f with enrollment_comments_raw := some v }
  | .repeatK, v => { f with repeat_comments_raw := some v }
  | .crossK, v => { f with cross_listed_raw := some v }

/-- Label text of a `strong` element: normalized text, trailing colons
removed, lower-cased. -/
def labelOf (strong : Node) : String := lowerStr (rstripColon (nodeText strong))

/-- Text pieces of the siblings following a label, stopping at the next
`strong` or `br` element; tags contribute their normalized text,
navigable strings their normalized content. -/
def sibParts : List Node → List String
  | [] => []
  | Node.text s :: rest => norm_space s :: sibParts rest
  | Node.elem nm i cls ch :: rest =>
    if nm = "strong" then []
    else if nm = "br" then []
    else nodeText (Node.elem nm i cls ch) :: sibParts rest

/-- The value collected after one label:
`norm_space(" ".join([p for p in parts if p]))`. -/
def collectVal (sibs : List Node) : String :=
  norm_space (String.intercalate " " ((sibParts sibs).filter (fun p => !(p = ""))))

/-- One iteration of the `for strong in course_div.find_all("strong")`
loop: skip unknown labels, store a non-empty collected value under the
canonical key. -/
def labeledStep (out : LabeledFields) (p : Node × List Node) : LabeledFields :=
  match wantedKey (labelOf p.1) with
  | none => out
  | some k =>
    let val := collectVal p.2
    if val = "" then out else out.set k val

/-- `extract_labeled_fields`. -/
def extract_labeled_fields (b : Node) : LabeledFields :=
  (strongsWithSibs b).foldl labeledStep emptyLabeled

/-- `course_div.select_one("span.CourseIdAndTitle")`. -/
def idTitleSpan (b : Node) : Option Node :=
  findFirst (fun n => isElemNamed "span" n && hasClass "CourseIdAndTitle" n) b

/-- Strategy 1 of `extract_course_header`: the `CourseIdAndTitle` span,
matched against `COURSE_HEADER_RE`, with the `"SUBJ NUM."`-plus-title
fallback splitting at the first dot. -/
def headerStrat1 (b : Node) : Option (String × String × String) :=
  match idTitleSpan b with
  | none => none
  | some idTitle =>
    let txt := nodeText idTitle
    match courseHeaderMatch txt with
    | some (s, n, t) => some (s, n, norm_space t)
    | none =>
      if txt.data.contains '.' then
        let left := norm_space ⟨txt.data.takeWhile (fun c => !(c = '.'))⟩
        let title := norm_space ⟨(txt.data.dropWhile (fun c => !(c = '.'))).tail⟩
        match courseCodeOnlyMatch left with
        | some (s, n) => if title = "" then none else some (s, n, title)
        | none => none
      else none

/-- Strategy 2: the first `b` element, matched against `COURSE_HEADER_RE`. -/
def headerStrat2 (b : Node) : Option (String × String × String) :=
  match findFirst (isElemNamed "b") b with
  | none => none
  | some bb =>
    match courseHeaderMatch (nodeText bb) with
    | some (s, n, t) => some (s, n, norm_space t)
    | none => none

/-- Strategy 3: `re.search` over the block's flattened text, accepted only
when the normalized title is non-empty. -/
def headerStrat3 (b : Node) : Option (String × String × String) :=
  match headerSearch (nodeText b).data with
  | none => none
  | some (s, n, traw) =>
    let title := norm_space ⟨traw⟩
    if title = "" then none else some (s, n, title)

/-- `extract_course_header`: the three strategies in order, first success
wins. -/
def extract_course_header (b : Node) : Option (String × String × String) :=
  match headerStrat1 b with
  | some h => some h
  | none =>
    match headerStrat2 b with
    | some h => some h
    | none => headerStrat3 b

/-- `course_div.select_one("div[id$='nonchildcourseContainer']") or course_div`
(a found tag is always truthy in BeautifulSoup). -/
def containerOf (b : Node) : Node :=
  match findFirst (fun n => isElemNamed "div" n && idEndsWith "nonchildcourseContainer" n) b with
  | some c => c
  | none => b

/-- One iteration of the `extract_description` loop: skip empty texts and
texts carrying a prerequisite or recommended-preparation label, keep the
strictly longest of the rest. -/
def descStep (best txt : String) : String :=
  if txt = "" then best
  else if containsStr txt "Prerequisite:" || containsStr txt "Recommended Preparation:" then best
  else if best.length < txt.length then txt else best

/-- `extract_description`. -/
def extract_description (b : Node) : String :=
  ((findAll (isElemNamed "div") (containerOf b)).map nodeText).foldl descStep ""

/-- The output record of `parse_course` (the JSON object of the script). -/
structure CourseRecord where
  subject : String
  number : String
  code : String
  title : String
  units : Option String
  level_group : Option String
  instructors : List String
  prerequisites_raw : Option String
  recommended_preparation_raw : Option String
  enrollment_comments_raw : Option String
  repeat_comments_raw : Option String
  cross_listed_raw : Option String
  description : String
  source_url : String
deriving DecidableEq

/-- `parse_course`: `None` exactly when no header is found, otherwise the
assembled record.  The ancestor chain stands for the live `parents`
iterator of the block. -/
def parse_course (course_div : Node) (ancestors : List Node) (source_url : String) :
    Option CourseRecord :=
  match extract_course_header course_div with
  | none => none
  | some (subject, number, title) =>
    let ui := parse_units_and_instructors course_div
    let labeled := extract_labeled_fields course_div
    some {
      subject := subject
      number := number
      code := subject ++ " " ++ number
      title := title
      units := ui.1
      level_group := find_level_group ancestors
      instructors := ui.2
      prerequisites_raw := labeled.prerequisites_raw
      recommended_preparation_raw := labeled.recommended_preparation_raw
      enrollment_comments_raw := labeled.enrollment_comments_raw
      repeat_comments_raw := labeled.repeat_comments_raw
      cross_listed_raw := labeled.cross_listed_raw
      description := extract_description course_div
      source_url := source_url }

/-! ## Progress bar and driver -/

/-- The `ProgressBar` class; floating-point display aside, its state is the
clamped total, the width and the running counter, with the ratio taken in
`ℚ`. -/
structure ProgressBar where
  total : Nat
  width : Nat
  current : Nat
deriving DecidableEq

/-- `ProgressBar.__init__`: the total is clamped to at least 1. -/
def ProgressBar.init (total width : Nat) : ProgressBar :=
  { total := max total 1, width := width, current := 0 }

/-- `ProgressBar.update`: advance the counter (`finish` is an update
by 0). -/
def ProgressBar.update (pb : ProgressBar) (inc : Nat) : ProgressBar :=
  { pb with current := pb.current + inc }

/-- The ratio computed in `update`: `min(self.current / self.total, 1.0)`,
taken over the rationals. -/
def ProgressBar.ratioQ (pb : ProgressBar) : ℚ :=
  min ((pb.current : ℚ) / (pb.total : ℚ)) 1

/-- The hardcoded catalog URL list. -/
def URLS : List String := [
  "https://my.sa.ucsb.edu/catalog/2022-2023/CollegesDepartments/ls-intro/stats.aspx?DeptTab=Courses",
  "https://my.sa.ucsb.edu/catalog/2022-2023/CollegesDepartments/ls-intro/econ.aspx?DeptTab=Courses",
  "https://my.sa.ucsb.edu/catalog/2022-2023/CollegesDepartments/ls-intro/math.aspx?DeptTab=Courses",
  "https://my.sa.ucsb.edu/catalog/2022-2023/CollegesDepartments/coe/compsci-engr.aspx?DeptTab=Courses",
  "https://my.sa.ucsb.edu/catalog/2022-2023/CollegesDepartments/coe/ece.aspx?DeptTab=Courses"]

/-- The first-pass fetch loop of `main`: each URL fetched once, in order;
the first raised exception aborts everything. -/
def fetchPages {ε : Type} (fetch : String → Except ε String) :
    List String → Except ε (List (String × String))
  | [] => Except.ok []
  | u :: rest =>
    match fetch u with
    | Except.error e => Except.error e
    | Except.ok h =>
      match fetchPages fetch rest with
      | Except.error e => Except.error e
      | Except.ok ps => Except.ok ((u, h) :: ps)

/-- `soup.select("div.CourseDisplay")` on a fetched page, with ancestor
chains; `parseHtml` stands for `BeautifulSoup(html, "html.parser")`. -/
def pageBlocks (parseHtml : String → Node) (html : String) : List (Node × List Node) :=
  courseDisplaysIn [] (parseHtml html)

/-- The first-pass estimate of one page: blocks whose header extraction
succeeds. -/
def countHeaders (parseHtml : String → Node) (html : String) : Nat :=
  ((pageBlocks parseHtml html).filter (fun p => (extract_course_header p.1).isSome)).length

/-- One block of the second pass: a failed parse increments the skip
counter, a parsed course is appended. -/
def secondStep (url : String) (st : List CourseRecord × Nat) (blk : Node × List Node) :
    List CourseRecord × Nat :=
  match parse_course blk.1 blk.2 url with
  | none => (st.1, st.2 + 1)
  | some r => (st.1 ++ [r], st.2)

/-- Second pass over one stored page. -/
def processPage (parseHtml : String → Node) (st : List CourseRecord × Nat)
    (p : String × String) : List CourseRecord × Nat :=
  (pageBlocks parseHtml p.2).foldl (secondStep p.1) st

/-- Outcome of a successful run of `main`: the records written to the JSON
array, the skip count and the first-pass total. -/
structure RunResult where
  records : List CourseRecord
  skipped : Nat
  totalEst : Nat
deriving DecidableEq

/-- `main`: fetch every URL (aborting on the first failure, before anything
is written), count parseable blocks for the progress display, then re-parse
every stored page and assemble the output. -/
def runScrape {ε : Type} (fetch : String → Except ε String) (parseHtml : String → Node) :
    Except ε RunResult :=
  match fetchPages fetch URLS with
  | Except.error e => Except.error e
  | Except.ok pages =>
    let totalEst := (pages.map (fun p => countHeaders parseHtml p.2)).sum
    let st := pages.foldl (processPage parseHtml) ([], 0)
    Except.ok { records := st.1, skipped := st.2, totalEst := totalEst }

/-! ## Spec-side definitions

Definitions in this section follow the wording of spec.md, to be compared
with the embedded source functions above. -/

/-- Follows the spec's words (§4.4): instructor text equal to "STAFF"
case-insensitively yields exactly `["STAFF"]`; any other non-empty
instructor text is split on semicolons with each piece trimmed, empties
dropped, order preserved. -/
def specInstructorList (txt : String) : List String :=
  if txt = "" then []
  else if upperStr txt = "STAFF" then ["STAFF"]
  else ((splitSemi txt.data).map (fun w => pyStrip ⟨w⟩)).filter (fun x => !(x = ""))

/-- Follows the spec's words (§4.4): a leading parenthesized group with
its content and the raw remainder. -/
def parenGroupSplit : List Char → Option (List Char × List Char)
  | '(' :: rest =>
    match rest.dropWhile (fun c => !(c = ')')) with
    | ')' :: after =>
      if (rest.takeWhile (fun c => !(c = ')'))).isEmpty then none
      else some (rest.takeWhile (fun c => !(c = ')')), after)
    | _ => none
  | _ => none

/-- Follows the spec's words (§4.4): if the instructor/units span is absent
return no units and no instructors; if its normalized text begins with a
parenthesized group, that group's content (trimmed) is the units string
and the trimmed remainder is the instructor text; otherwise the whole text
is instructor text. -/
def specUnitsAndInstructors (b : Node) : Option String × List String :=
  match instrSpan b with
  | none => (none, [])
  | some sp =>
    let txt := nodeText sp
    match parenGroupSplit txt.data with
    | some (content, remainder) =>
      (some (pyStrip ⟨content⟩), specInstructorList (pyStrip ⟨remainder⟩))
    | none => (none, specInstructorList txt)

/-- Keep the strictly longer text (one step of "return the longest"). -/
def maxStep (best txt : String) : String := if best.length < txt.length then txt else best

/-- Follows the spec's words (§4.7): the longest string of a list, the
earliest kept on ties, empty when the list is empty. -/
def firstMax : List String → String
  | [] => ""
  | t :: rest =>
    let r := firstMax rest
    if t.length < r.length then r else t

/-- The label filter of §4.7: non-empty and free of both literal labels. -/
def descQual (txt : String) : Bool :=
  !(txt = "") &&
    !(containsStr txt "Prerequisite:" || containsStr txt "Recommended Preparation:")

/-- Element test (a "sub-element" in the spec's words). -/
def isElemNode : Node → Bool
  | Node.text _ => false
  | Node.elem _ _ _ _ => true

/-- The description the claim describes, taken literally: every nested
text-bearing sub-element of the preferred container is examined, the
longest normalized text among those passing the label filter is returned,
ties keeping the earliest, empty when none qualify. -/
def specDescriptionSubElems (b : Node) : String :=
  firstMax (((findAll isElemNode (containerOf b)).map nodeText).filter descQual)

/-- The description restricted to nested `div` sub-elements, as the code
scans: the longest qualifying normalized `div` text, ties keeping the
earliest, empty when none qualify. -/
def specDescriptionDivs (b : Node) : String :=
  firstMax (((findAll (isElemNamed "div") (containerOf b)).map nodeText).filter descQual)

/-- Follows the spec's words (§4.6): the values collected for one canonical
field, in document order — each matching label's following-sibling text,
non-empty ones only. -/
def collectedFor (k : FieldKey) (l : List (Node × List Node)) : List String :=
  l.filterMap (fun p =>
    if wantedKey (labelOf p.1) = some k then
      (if collectVal p.2 = "" then none else some (collectVal p.2))
    else none)

/-- Follows the spec's words (§4.6): each canonical field holds the value
collected at its label (the last one when a label repeats), absent when
the label is missing. -/
def specLabeledFields (b : Node) : LabeledFields :=
  { prerequisites_raw := (collectedFor .prereqK (strongsWithSibs b)).getLast?
    recommended_preparation_raw := (collectedFor .recPrepK (strongsWithSibs b)).getLast?
    enrollment_comments_raw := (collectedFor .enrollK (strongsWithSibs b)).getLast?
    repeat_comments_raw := (collectedFor .repeatK (strongsWithSibs b)).getLast?
    cross_listed_raw := (collectedFor .crossK (strongsWithSibs b)).getLast? }

/-! ## Helper lemmas for the claims -/

theorem upper_not_space {c : Char} (h : isUpperAZ c = true) : isSpaceCh c = false := by
  simp only [isUpperAZ, Bool.and_eq_true, decide_eq_true_eq] at h
  simp only [isSpaceCh, Bool.or_eq_false_iff, decide_eq_false_iff_not]
  refine ⟨⟨⟨⟨⟨?_, ?_⟩, ?_⟩, ?_⟩, ?_⟩, ?_⟩ <;> rintro rfl <;> revert h <;> decide

theorem digit_not_space {c : Char} (h : isDigit09 c = true) : isSpaceCh c = false := by
  simp only [isDigit09, Bool.and_eq_true, decide_eq_true_eq] at h
  simp only [isSpaceCh, Bool.or_eq_false_iff, decide_eq_false_iff_not]
  refine ⟨⟨⟨⟨⟨?_, ?_⟩, ?_⟩, ?_⟩, ?_⟩, ?_⟩ <;> rintro rfl <;> revert h <;> decide

theorem alnum_not_space {c : Char} (h : isAlnumUp c = true) : isSpaceCh c = false := by
  simp only [isAlnumUp, Bool.or_eq_true] at h
  rcases h with h | h
  · exact upper_not_space h
  · exact digit_not_space h

theorem dropWhile_append_left {α : Type} {p : α → Bool} :
    ∀ {a : List α} (b : List α), a.dropWhile p ≠ [] →
      (a ++ b).dropWhile p = a.dropWhile p ++ b
  | [], b, h => absurd rfl h
  | x :: xs, b, h => by
    by_cases hx : p x
    · rw [List.dropWhile_cons, if_pos hx] at h
      rw [List.cons_append, List.dropWhile_cons, if_pos hx, List.dropWhile_cons, if_pos hx]
      exact dropWhile_append_left b h
    · rw [List.cons_append, List.dropWhile_cons, if_neg hx, List.dropWhile_cons, if_neg hx]
      rfl

theorem dropTrailingWs_cons_not_space {c : Char} (rest : List Char)
    (h : isSpaceCh c = false) : dropTrailingWs (c :: rest) = c :: dropTrailingWs rest := by
  unfold dropTrailingWs
  rw [List.reverse_cons]
  by_cases hr : rest.reverse.dropWhile isSpaceCh = []
  · rw [List.dropWhile_append_of_pos (List.dropWhile_eq_nil_iff.mp hr), hr]
    simp [List.dropWhile_cons, h]
  · rw [dropWhile_append_left [c] hr]
    simp

theorem dropTrailingWs_eq_self {l : List Char}
    (h : ∀ c, l.getLast? = some c → isSpaceCh c = false) : dropTrailingWs l = l := by
  unfold dropTrailingWs
  cases hr : l.reverse with
  | nil =>
    rw [List.dropWhile_nil]
    rw [← hr, List.reverse_reverse]
  | cons c t =>
    have hc : l.getLast? = some c := by
      rw [← List.head?_reverse, hr]
      rfl
    rw [List.dropWhile_cons, if_neg (by simp [h c hc])]
    rw [← hr, List.reverse_reverse]

theorem string_mk_ne_empty {l : List Char} (h : l ≠ []) : (⟨l⟩ : String) ≠ "" := by
  intro hcon
  exact h (congrArg String.data hcon)

theorem norm_space_mk_ne_empty {l : List Char} {c : Char} (hc : c ∈ l)
    (hns : isSpaceCh c = false) : norm_space ⟨l⟩ ≠ "" := by
  intro hcon
  have : normSpaceL l = [] := congrArg String.data hcon
  exact normSpaceL_ne_nil hc hns this

/-- Suffix chain of the matcher state: the tail examined after the dot is
a suffix of the input. -/
theorem courseHeaderMatch_tail_suffix (x : List Char) {r5 : List Char}
    (h : ((((x.dropWhile isSpaceCh).dropWhile isUpperAZ).dropWhile
        isSpaceCh).dropWhile isAlnumUp).dropWhile isSpaceCh = '.' :: r5) :
    r5 <:+ x := by
  have hchain : ((((x.dropWhile isSpaceCh).dropWhile isUpperAZ).dropWhile
      isSpaceCh).dropWhile isAlnumUp).dropWhile isSpaceCh <:+ x :=
    (List.dropWhile_suffix _).trans ((List.dropWhile_suffix _).trans
      ((List.dropWhile_suffix _).trans ((List.dropWhile_suffix _).trans
        (List.dropWhile_suffix _))))
  rw [h] at hchain
  exact (List.suffix_cons '.' r5).trans hchain

theorem nodeText_getLast_not_space (nd : Node) :
    ∀ c, (nodeText nd).data.getLast? = some c → isSpaceCh c = false :=
  fun _ hc => normSpaceL_getLast_not_space hc

theorem nodeText_tidy (nd : Node) : tidyL (nodeText nd).data :=
  tidyL_normSpaceL _

theorem courseHeaderMatch_fields {x s n t : String}
    (hlast : ∀ c, x.data.getLast? = some c → isSpaceCh c = false)
    (h : courseHeaderMatch x = some (s, n, t)) :
    s ≠ "" ∧ n ≠ "" ∧ norm_space t ≠ "" := by
  simp only [courseHeaderMatch] at h
  split at h
  · exact absurd h (by simp)
  · rename_i hc1
    split at h
    · exact absurd h (by simp)
    · rename_i hc2
      split at h
      · exact absurd h (by simp)
      · rename_i hc3
        split at h
        · rename_i r5 heq
          rcases Option.map_eq_some'.mp h with ⟨tg, htg, hval⟩
          simp only [Prod.mk.injEq] at hval
          obtain ⟨hs, hn, ht⟩ := hval
          refine ⟨?_, ?_, ?_⟩
          · rw [← hs]
            apply string_mk_ne_empty
            simp only [Bool.or_eq_true, not_or, decide_eq_true_eq] at hc1
            intro hcon
            rw [hcon] at hc1
            simp at hc1
          · rw [← hn]
            apply string_mk_ne_empty
            simp only [Bool.not_eq_true'] at hc3
            unfold numberRunOK at hc3
            simp only [Bool.and_eq_true, decide_eq_true_eq] at hc3
            intro hcon
            rw [hcon] at hc3
            simp at hc3
          · rw [← ht]
            simp only [titleGroupTail] at htg
            split at htg
            · rename_i hr6
              split at htg
              · exact absurd htg (by simp)
              · rename_i hlead
                -- the tail after the dot is pure whitespace: the input would
                -- end in whitespace, impossible for normalized input
                exfalso
                have hr5suf : r5 <:+ x.data := courseHeaderMatch_tail_suffix x.data heq
                have hallsp : ∀ c ∈ r5, isSpaceCh c = true := by
                  apply List.dropWhile_eq_nil_iff.mp
                  simpa [List.isEmpty_iff] using hr6
                have hr5ne : r5 ≠ [] := by
                  intro hcon
                  rw [hcon] at hlead
                  simp at hlead
                obtain ⟨pre, hpre⟩ := hr5suf
                obtain ⟨z, hz⟩ := Option.ne_none_iff_exists'.mp
                  (fun hcon => hr5ne (List.getLast?_eq_none_iff.mp hcon))
                have hxl : x.data.getLast? = some z := by
                  rw [← hpre, List.getLast?_append_of_ne_nil _ hr5ne, hz]
                exact absurd (hallsp z (mem_of_getLast?_eq hz)) (by simp [hlast z hxl])
            · rename_i hr6
              simp only [Option.some.injEq] at htg
              have hr6ne : r5.dropWhile isSpaceCh ≠ [] := by
                simpa [List.isEmpty_iff] using hr6
              obtain ⟨c6, r6t, hc6⟩ := List.exists_cons_of_ne_nil hr6ne
              have hc6ns : isSpaceCh c6 = false := by
                apply head_dropWhile_false (l := r5) (p := isSpaceCh)
                rw [hc6]
                rfl
              rw [hc6, dropTrailingWs_cons_not_space _ hc6ns] at htg
              rw [← htg]
              exact norm_space_mk_ne_empty (List.mem_cons_self _ _) hc6ns
        · exact absurd h (by simp)

theorem courseCodeOnlyMatch_fields {x s n : String}
    (h : courseCodeOnlyMatch x = some (s, n)) : s ≠ "" ∧ n ≠ "" := by
  simp only [courseCodeOnlyMatch] at h
  split at h
  · exact absurd h (by simp)
  · rename_i hc1
    split at h
    · exact absurd h (by simp)
    · rename_i hc2
      split at h
      · exact absurd h (by simp)
      · rename_i hc3
        split at h
        · simp only [Option.some.injEq, Prod.mk.injEq] at h
          obtain ⟨hs, hn⟩ := h
          constructor
          · rw [← hs]
            apply string_mk_ne_empty
            simp only [Bool.or_eq_true, not_or, decide_eq_true_eq] at hc1
            intro hcon
            rw [hcon] at hc1
            simp at hc1
          · rw [← hn]
            apply string_mk_ne_empty
            simp only [Bool.not_eq_true'] at hc3
            unfold numberRunOK at hc3
            simp only [Bool.and_eq_true, decide_eq_true_eq] at hc3
            intro hcon
            rw [hcon] at hc3
            simp at hc3
        · exact absurd h (by simp)

theorem headerSearchAttempt_fields {cs : List Char} {s n : String} {tr : List Char}
    (h : headerSearchAttempt cs = some (s, n, tr)) : s ≠ "" ∧ n ≠ "" := by
  simp only [headerSearchAttempt] at h
  split at h
  · exact absurd h (by simp)
  · rename_i hc1
    split at h
    · exact absurd h (by simp)
    · rename_i hc2
      split at h
      · exact absurd h (by simp)
      · rename_i hc3
        split at h
        · rename_i r5 heq
          rcases Option.map_eq_some'.mp h with ⟨tg, htg, hval⟩
          simp only [Prod.mk.injEq] at hval
          obtain ⟨hs, hn, _⟩ := hval
          constructor
          · rw [← hs]
            apply string_mk_ne_empty
            simp only [Bool.or_eq_true, not_or, decide_eq_true_eq] at hc1
            intro hcon
            rw [hcon] at hc1
            simp at hc1
          · rw [← hn]
            apply string_mk_ne_empty
            simp only [Bool.not_eq_true'] at hc3
            unfold numberRunOK at hc3
            simp only [Bool.and_eq_true, decide_eq_true_eq] at hc3
            intro hcon
            rw [hcon] at hc3
            simp at hc3
        · exact absurd h (by simp)

theorem headerSearch_fields : ∀ {cs : List Char} {s n : String} {tr : List Char},
    headerSearch cs = some (s, n, tr) → s ≠ "" ∧ n ≠ "" := by
  intro cs
  induction cs with
  | nil => intro s n tr h; simp [headerSearch] at h
  | cons c rest ih =>
    intro s n tr h
    simp only [headerSearch] at h
    split at h
    · rename_i x hx
      rw [Option.some.injEq] at h
      subst h
      exact headerSearchAttempt_fields hx
    · exact ih h

theorem headerStrat1_fields {b : Node} {s n t : String}
    (h : headerStrat1 b = some (s, n, t)) : s ≠ "" ∧ n ≠ "" ∧ t ≠ "" := by
  simp only [headerStrat1] at h
  split at h
  · exact absurd h (by simp)
  · rename_i sp hsp
    split at h
    · rename_i s0 n0 t0 hm
      simp only [Option.some.injEq, Prod.mk.injEq] at h
      obtain ⟨hs, hn, ht⟩ := h
      obtain ⟨f1, f2, f3⟩ := courseHeaderMatch_fields (nodeText_getLast_not_space sp) hm
      subst hs hn ht
      exact ⟨f1, f2, f3⟩
    · split at h
      · split at h
        · rename_i s0 n0 hm
          split at h
          · exact absurd h (by simp)
          · rename_i htne
            simp only [Option.some.injEq, Prod.mk.injEq] at h
            obtain ⟨hs, hn, ht⟩ := h
            obtain ⟨f1, f2⟩ := courseCodeOnlyMatch_fields hm
            subst hs hn ht
            exact ⟨f1, f2, fun hcon => htne hcon⟩
        · exact absurd h (by simp)
      · exact absurd h (by simp)

theorem headerStrat2_fields {b : Node} {s n t : String}
    (h : headerStrat2 b = some (s, n, t)) : s ≠ "" ∧ n ≠ "" ∧ t ≠ "" := by
  simp only [headerStrat2] at h
  split at h
  · exact absurd h (by simp)
  · rename_i bb hbb
    split at h
    · rename_i s0 n0 t0 hm
      simp only [Option.some.injEq, Prod.mk.injEq] at h
      obtain ⟨hs, hn, ht⟩ := h
      obtain ⟨f1, f2, f3⟩ := courseHeaderMatch_fields (nodeText_getLast_not_space bb) hm
      subst hs hn ht
      exact ⟨f1, f2, f3⟩
    · exact absurd h (by simp)

theorem headerStrat3_fields {b : Node} {s n t : String}
    (h : headerStrat3 b = some (s, n, t)) : s ≠ "" ∧ n ≠ "" ∧ t ≠ "" := by
  simp only [headerStrat3] at h
  split at h
  · exact absurd h (by simp)
  · rename_i s0 n0 tr hm
    split at h
    · exact absurd h (by simp)
    · rename_i htne
      simp only [Option.some.injEq, Prod.mk.injEq] at h
      obtain ⟨hs, hn, ht⟩ := h
      obtain ⟨f1, f2⟩ := headerSearch_fields hm
      subst hs hn ht
      exact ⟨f1, f2, fun hcon => htne hcon⟩

theorem extract_course_header_fields {b : Node} {s n t : String}
    (h : extract_course_header b = some (s, n, t)) : s ≠ "" ∧ n ≠ "" ∧ t ≠ "" := by
  simp only [extract_course_header] at h
  split at h
  · rename_i hdr h1
    rw [Option.some.injEq] at h
    subst h
    exact headerStrat1_fields h1
  · split at h
    · rename_i hdr h2
      rw [Option.some.injEq] at h
      subst h
      exact headerStrat2_fields h2
    · exact headerStrat3_fields h

theorem parse_course_isSome (b : Node) (anc : List Node) (url : String) :
    (parse_course b anc url).isSome = (extract_course_header b).isSome := by
  unfold parse_course
  cases h : extract_course_header b with
  | none => simp
  | some v =>
    obtain ⟨s, n, t⟩ := v
    simp

theorem secondStep_length (url : String) (st : List CourseRecord × Nat)
    (blk : Node × List Node) :
    (secondStep url st blk).1.length
      = st.1.length + (if (extract_course_header blk.1).isSome then 1 else 0) := by
  unfold secondStep
  cases h : parse_course blk.1 blk.2 url with
  | none =>
    have hi := parse_course_isSome blk.1 blk.2 url
    rw [h] at hi
    simp only [Option.isSome_none] at hi
    rw [← hi]
    simp
  | some r =>
    have hi := parse_course_isSome blk.1 blk.2 url
    rw [h] at hi
    simp only [Option.isSome_some] at hi
    rw [← hi]
    simp

theorem foldBlocks_length (url : String) (blocks : List (Node × List Node)) :
    ∀ st : List CourseRecord × Nat,
      ((blocks.foldl (secondStep url) st).1).length
        = st.1.length
          + (blocks.filter (fun p => (extract_course_header p.1).isSome)).length := by
  induction blocks with
  | nil => intro st; simp
  | cons blk rest ih =>
    intro st
    rw [List.foldl_cons, ih (secondStep url st blk), secondStep_length]
    rw [List.filter_cons]
    by_cases hb : (extract_course_header blk.1).isSome
    · rw [if_pos hb, if_pos hb]
      simp only [List.length_cons]
      omega
    · rw [if_neg hb, if_neg hb]
      omega

theorem processPage_length (parseHtml : String → Node) (st : List CourseRecord × Nat)
    (p : String × String) :
    ((processPage parseHtml st p).1).length = st.1.length + countHeaders parseHtml p.2 := by
  unfold processPage countHeaders
  exact foldBlocks_length p.1 (pageBlocks parseHtml p.2) st

theorem foldPages_length (parseHtml : String → Node) (pages : List (String × String)) :
    ∀ st : List CourseRecord × Nat,
      ((pages.foldl (processPage parseHtml) st).1).length
        = st.1.length + (pages.map (fun p => countHeaders parseHtml p.2)).sum := by
  induction pages with
  | nil => intro st; simp
  | cons p rest ih =>
    intro st
    rw [List.foldl_cons, ih (processPage parseHtml st p), processPage_length]
    simp only [List.map_cons, List.sum_cons]
    omega

theorem descStep_no_label {best txt : String}
    (hb1 : containsStr best "Prerequisite:" = false)
    (hb2 : containsStr best "Recommended Preparation:" = false) :
    containsStr (descStep best txt) "Prerequisite:" = false ∧
    containsStr (descStep best txt) "Recommended Preparation:" = false := by
  unfold descStep
  by_cases h1 : txt = ""
  · rw [if_pos h1]
    exact ⟨hb1, hb2⟩
  · rw [if_neg h1]
    by_cases h2 : (containsStr txt "Prerequisite:"
        || containsStr txt "Recommended Preparation:") = true
    · rw [if_pos h2]
      exact ⟨hb1, hb2⟩
    · rw [if_neg h2]
      simp only [Bool.or_eq_true, not_or, Bool.not_eq_true] at h2
      by_cases h3 : best.length < txt.length
      · rw [if_pos h3]
        exact ⟨h2.1, h2.2⟩
      · rw [if_neg h3]
        exact ⟨hb1, hb2⟩

theorem descFold_no_label (l : List String) :
    ∀ best : String, containsStr best "Prerequisite:" = false →
      containsStr best "Recommended Preparation:" = false →
      containsStr (l.foldl descStep best) "Prerequisite:" = false ∧
      containsStr (l.foldl descStep best) "Recommended Preparation:" = false := by
  induction l with
  | nil => intro best h1 h2; exact ⟨h1, h2⟩
  | cons txt rest ih =>
    intro best h1 h2
    rw [List.foldl_cons]
    obtain ⟨g1, g2⟩ := descStep_no_label h1 h2
    exact ih (descStep best txt) g1 g2

theorem foldl_maxStep_firstMax (l : List String) :
    ∀ b : String, l.foldl maxStep b
      = if b.length < (firstMax l).length then firstMax l else b := by
  induction l with
  | nil =>
    intro b
    simp [firstMax]
  | cons t rest ih =>
    intro b
    rw [List.foldl_cons, ih (maxStep b t)]
    simp only [firstMax, maxStep]
    split_ifs <;> first | rfl | (exfalso; omega)

theorem foldl_descStep_filter (l : List String) :
    ∀ b : String, l.foldl descStep b = (l.filter descQual).foldl maxStep b := by
  induction l with
  | nil => intro b; rfl
  | cons t rest ih =>
    intro b
    rw [List.foldl_cons, List.filter_cons]
    by_cases hq : descQual t = true
    · rw [if_pos hq, List.foldl_cons]
      have hstep : descStep b t = maxStep b t := by
        unfold descQual at hq
        simp only [Bool.and_eq_true, Bool.not_eq_true', decide_eq_false_iff_not] at hq
        unfold descStep maxStep
        rw [if_neg hq.1, if_neg (by rw [hq.2]; simp)]
      rw [hstep, ih]
    · rw [if_neg hq]
      have hstep : descStep b t = b := by
        unfold descQual at hq
        simp only [Bool.and_eq_true, Bool.not_eq_true', decide_eq_false_iff_not, not_and] at hq
        unfold descStep
        by_cases h1 : t = ""
        · rw [if_pos h1]
        · rw [if_neg h1]
          rw [if_pos ?_]
          by_cases h2 : (containsStr t "Prerequisite:"
              || containsStr t "Recommended Preparation:") = true
          · exact h2
          · exact absurd (by simpa using h2) (by simpa using hq h1)
      rw [hstep, ih]

theorem string_length_zero {s : String} (h : s.length = 0) : s = "" := by
  cases s with
  | mk l =>
    cases l with
    | nil => rfl
    | cons c t => simp [String.length] at h

theorem pyStrip_mk_eq_norm {w : List Char} (h : tidyL w) :
    pyStrip ⟨w⟩ = norm_space ⟨w⟩ :=
  congrArg String.mk (pyStripL_of_tidy h)

theorem norm_space_mk_dropWhile (l : List Char) :
    norm_space ⟨l.dropWhile isSpaceCh⟩ = norm_space ⟨l⟩ := by
  apply congrArg String.mk
  unfold normSpaceL
  rw [wordsOf_dropWhile_space]

theorem instructorList_eq_spec {x : String} (hx : tidyL x.data) :
    instructorList x = specInstructorList x := by
  unfold instructorList specInstructorList
  by_cases h1 : x = ""
  · rw [if_pos h1, if_pos h1]
  · rw [if_neg h1, if_neg h1]
    by_cases h2 : upperStr x = "STAFF"
    · rw [if_pos h2, if_pos h2]
    · rw [if_neg h2, if_neg h2]
      apply congrArg
      apply List.map_congr_left
      intro w hw
      have hwt : tidyL w := tidyL_frag hx (splitSemi_mem_frag x.data w hw)
      exact (pyStrip_mk_eq_norm hwt).symm

theorem parenPrefixMatch_eq (cs : List Char) :
    parenPrefixMatch cs
      = (parenGroupSplit cs).map (fun p => (p.1, p.2.dropWhile isSpaceCh)) := by
  unfold parenPrefixMatch parenGroupSplit
  split
  · rename_i rest
    split
    · rename_i after heq
      by_cases hg : (rest.takeWhile (fun c => !(c = ')'))).isEmpty
      · rw [if_pos hg, if_pos hg]
        rfl
      · rw [if_neg hg, if_neg hg]
        rfl
    · rfl
  · rfl

theorem parenGroupSplit_frag {cs content after : List Char}
    (h : parenGroupSplit cs = some (content, after)) :
    content <:+: cs ∧ after <:+: cs := by
  unfold parenGroupSplit at h
  split at h
  · rename_i rest
    split at h
    · rename_i af heq
      split at h
      · exact absurd h (by simp)
      · simp only [Option.some.injEq, Prod.mk.injEq] at h
        obtain ⟨hcont, haf⟩ := h
        have hrest : rest = content ++ ')' :: after := by
          conv_lhs => rw [← List.takeWhile_append_dropWhile (fun c => !(c = ')')) rest]
          rw [heq, hcont, haf]
        constructor
        · exact ⟨['('], ')' :: after, by rw [hrest]; rfl⟩
        · refine ⟨'(' :: content ++ [')'], [], ?_⟩
          rw [List.append_nil, hrest]
          simp
    · exact absurd h (by simp)
  · exact absurd h (by simp)

theorem LabeledFields.get_set_same (f : LabeledFields) (k : FieldKey) (v : String) :
    (f.set k v).get k = some v := by
  cases k <;> rfl

theorem LabeledFields.get_set_other (f : LabeledFields) {k' k : FieldKey} (v : String)
    (h : k' ≠ k) : (f.set k' v).get k = f.get k := by
  cases k' <;> cases k <;> first | rfl | exact absurd rfl h

theorem labeled_fold_get (l : List (Node × List Node)) :
    ∀ (out : LabeledFields) (k : FieldKey),
      (l.foldl labeledStep out).get k =
        match (collectedFor k l).getLast? with
        | some v => some v
        | none => out.get k := by
  induction l with
  | nil =>
    intro out k
    simp [collectedFor]
  | cons p rest ih =>
    intro out k
    rw [List.foldl_cons, ih (labeledStep out p) k]
    have hcoll : collectedFor k (p :: rest)
        = (if wantedKey (labelOf p.1) = some k then
            (if collectVal p.2 = "" then none else some (collectVal p.2))
          else none).toList ++ collectedFor k rest := by
      unfold collectedFor
      rw [List.filterMap_cons]
      split
      · rename_i hnone
        rw [hnone]
        rfl
      · rename_i v hsome
        rw [hsome]
        rfl
    rw [hcoll]
    cases hrest : (collectedFor k rest).getLast? with
    | some v =>
      have hne : collectedFor k rest ≠ [] := by
        intro hcon
        rw [hcon] at hrest
        simp at hrest
      rw [List.getLast?_append_of_ne_nil _ hne, hrest]
    | none =>
      have hnil : collectedFor k rest = [] := List.getLast?_eq_none_iff.mp hrest
      rw [hnil, List.append_nil]
      unfold labeledStep
      cases hw : wantedKey (labelOf p.1) with
      | none =>
        rw [if_neg (by simp [hw])]
        rfl
      | some k' =>
        by_cases hkk : k' = k
        · subst hkk
          rw [if_pos (by simp)]
          by_cases hv : collectVal p.2 = ""
          · simp [hv]
          · simp [hv, LabeledFields.get_set_same]
        · rw [if_neg (by simp [hkk])]
          by_cases hv : collectVal p.2 = ""
          · simp [hv]
          · simp [hv, LabeledFields.get_set_other _ _ hkk]

theorem courseHeaderMatch_mk (sd dd ad td : List Char)
    (hs2 : 2 ≤ sd.length) (hs10 : sd.length ≤ 10)
    (hsU : ∀ c ∈ sd, isUpperAZ c = true)
    (hd1 : 1 ≤ dd.length) (hd3 : dd.length ≤ 3)
    (hdD : ∀ c ∈ dd, isDigit09 c = true)
    (ha6 : ad.length ≤ 6) (haA : ∀ c ∈ ad, isAlnumUp c = true)
    (htne : td ≠ [])
    (hthead : ∀ c, td.head? = some c → isSpaceCh c = false)
    (htlast : ∀ c, td.getLast? = some c → isSpaceCh c = false) :
    courseHeaderMatch ⟨sd ++ ' ' :: (dd ++ (ad ++ ('.' :: ' ' :: td)))⟩
      = some (⟨sd⟩, ⟨dd ++ ad⟩, ⟨td⟩) := by
  have hSne : sd ≠ [] := by
    intro hcon
    rw [hcon] at hs2
    simp at hs2
  obtain ⟨c0, s1, hs1⟩ := List.exists_cons_of_ne_nil hSne
  have hc0 : isUpperAZ c0 = true := hsU c0 (by rw [hs1]; simp)
  have hDne : dd ≠ [] := by
    intro hcon
    rw [hcon] at hd1
    simp at hd1
  obtain ⟨e0, d1, hd0⟩ := List.exists_cons_of_ne_nil hDne
  have he0 : isDigit09 e0 = true := hdD e0 (by rw [hd0]; simp)
  obtain ⟨u0, t1, ht1⟩ := List.exists_cons_of_ne_nil htne
  have hu0 : isSpaceCh u0 = false := hthead u0 (by rw [ht1]; rfl)
  have hdata : (⟨sd ++ ' ' :: (dd ++ (ad ++ ('.' :: ' ' :: td)))⟩ : String).data
      = sd ++ ' ' :: (dd ++ (ad ++ ('.' :: ' ' :: td))) := rfl
  have st1 : List.dropWhile isSpaceCh (sd ++ ' ' :: (dd ++ (ad ++ ('.' :: ' ' :: td))))
      = sd ++ ' ' :: (dd ++ (ad ++ ('.' :: ' ' :: td))) := by
    rw [hs1, List.cons_append, List.dropWhile_cons, if_neg (by simp [upper_not_space hc0])]
  have st2 : List.takeWhile isUpperAZ (sd ++ ' ' :: (dd ++ (ad ++ ('.' :: ' ' :: td)))) = sd := by
    rw [List.takeWhile_append_of_pos hsU, List.takeWhile_cons,
      if_neg (by decide), List.append_nil]
  have st3 : List.dropWhile isUpperAZ (sd ++ ' ' :: (dd ++ (ad ++ ('.' :: ' ' :: td))))
      = ' ' :: (dd ++ (ad ++ ('.' :: ' ' :: td))) := by
    rw [List.dropWhile_append_of_pos hsU, List.dropWhile_cons, if_neg (by decide)]
  have st4 : List.takeWhile isSpaceCh (' ' :: (dd ++ (ad ++ ('.' :: ' ' :: td))))
      = [' '] := by
    rw [List.takeWhile_cons, if_pos (by decide), hd0, List.cons_append,
      List.takeWhile_cons, if_neg (by simp [digit_not_space he0])]
  have st5 : List.dropWhile isSpaceCh (' ' :: (dd ++ (ad ++ ('.' :: ' ' :: td))))
      = dd ++ (ad ++ ('.' :: ' ' :: td)) := by
    rw [List.dropWhile_cons, if_pos (by decide), hd0, List.cons_append,
      List.dropWhile_cons, if_neg (by simp [digit_not_space he0]), ← List.cons_append, ← hd0]
  have hdAl : ∀ c ∈ dd, isAlnumUp c = true := by
    intro c hc
    simp [isAlnumUp, hdD c hc]
  have st6 : List.takeWhile isAlnumUp (dd ++ (ad ++ ('.' :: ' ' :: td))) = dd ++ ad := by
    rw [List.takeWhile_append_of_pos hdAl, List.takeWhile_append_of_pos haA,
      List.takeWhile_cons, if_neg (by decide), List.append_nil]
  have st7 : List.dropWhile isAlnumUp (dd ++ (ad ++ ('.' :: ' ' :: td)))
      = '.' :: ' ' :: td := by
    rw [List.dropWhile_append_of_pos hdAl, List.dropWhile_append_of_pos haA,
      List.dropWhile_cons, if_neg (by decide)]
  have st8 : List.dropWhile isSpaceCh ('.' :: ' ' :: td) = '.' :: ' ' :: td := by
    rw [List.dropWhile_cons, if_neg (by decide)]
  have st9 : numberRunOK (dd ++ ad) = true := by
    unfold numberRunOK
    rw [List.takeWhile_append_of_pos hdD]
    simp only [Bool.and_eq_true, decide_eq_true_eq, List.length_append]
    have hG : (List.takeWhile isDigit09 ad).length ≤ ad.length := by
      conv_rhs => rw [← List.takeWhile_append_dropWhile isDigit09 ad]
      simp only [List.length_append]
      omega
    omega
  have st10 : titleGroupTail (' ' :: td) = some td := by
    simp only [titleGroupTail]
    have hr6 : List.dropWhile isSpaceCh (' ' :: td) = td := by
      rw [List.dropWhile_cons, if_pos (by decide), ht1, List.dropWhile_cons,
        if_neg (by simp [hu0]), ← ht1]
    rw [hr6, if_neg (by rw [ht1]; simp), dropTrailingWs_eq_self htlast]
  simp only [courseHeaderMatch, hdata]
  rw [st1, st2, st3]
  rw [if_neg (by simp only [Bool.or_eq_true, decide_eq_true_eq, not_or]; omega)]
  rw [st4, if_neg (by simp)]
  rw [st5, st6, st7]
  rw [if_neg (by simp [st9])]
  rw [st8]
  simp only [st10, Option.map_some']

theorem fetchPages_error {ε : Type} (fetch : String → Except ε String) :
    ∀ (l : List String) (u : String), u ∈ l → (∃ e, fetch u = Except.error e) →
      ∃ e2, fetchPages fetch l = Except.error e2 := by
  intro l
  induction l with
  | nil => intro u hu; simp at hu
  | cons c rest ih =>
    intro u hu hee
    obtain ⟨e, he⟩ := hee
    cases hf : fetch c with
    | error e0 => exact ⟨e0, by simp [fetchPages, hf]⟩
    | ok h =>
      rcases List.mem_cons.mp hu with rfl | hmem
      · rw [hf] at he
        exact absurd he (by simp)
      · obtain ⟨e2, he2⟩ := ih u hmem ⟨e, he⟩
        exact ⟨e2, by simp [fetchPages, hf, he2]⟩

/-! ## Claims -/

/-- Claim C4: if fetching any configured URL fails, the whole run aborts
with the error propagated and no output is produced — `runScrape` returns
an error, never a result. -/
theorem fetch_failure_aborts_run {ε : Type} (fetch : String → Except ε String)
    (parseHtml : String → Node) (u : String) (hu : u ∈ URLS) (e : ε)
    (he : fetch u = Except.error e) :
    ∃ e2, runScrape fetch parseHtml = Except.error e2 := by
  obtain ⟨e2, h2⟩ := fetchPages_error fetch URLS u hu ⟨e, he⟩
  refine ⟨e2, ?_⟩
  unfold runScrape
  rw [h2]

/-- Witness for C4 at a concrete failing fetch oracle. -/
theorem fetch_failure_aborts_run_witness :
    ("https://my.sa.ucsb.edu/catalog/2022-2023/CollegesDepartments/ls-intro/stats.aspx?DeptTab=Courses"
        ∈ URLS) ∧
    ((fun _ : String => (Except.error 0 : Except Nat String))
        "https://my.sa.ucsb.edu/catalog/2022-2023/CollegesDepartments/ls-intro/stats.aspx?DeptTab=Courses"
      = Except.error 0) ∧
    ∃ e2, runScrape (fun _ : String => (Except.error 0 : Except Nat String))
        (fun _ => Node.text "") = Except.error e2 :=
  ⟨by decide, rfl,
    fetch_failure_aborts_run (fun _ => Except.error 0) (fun _ => Node.text "")
      "https://my.sa.ucsb.edu/catalog/2022-2023/CollegesDepartments/ls-intro/stats.aspx?DeptTab=Courses"
      (by decide) 0 rfl⟩

/-- Claim C5: a block on which no header-extraction strategy succeeds is
skipped: `parse_course` returns nothing, the second-pass step leaves the
record list unchanged and increments the skip counter by exactly one, and
the step always produces a next state (the run never aborts there). -/
theorem headerless_block_skipped_and_counted (b : Node) (anc : List Node) (url : String)
    (rs : List CourseRecord) (k : Nat) (h : extract_course_header b = none) :
    parse_course b anc url = none ∧
      secondStep url (rs, k) (b, anc) = (rs, k + 1) := by
  have hp : parse_course b anc url = none := by
    unfold parse_course
    rw [h]
  exact ⟨hp, by unfold secondStep; rw [hp]⟩

/-- Witness for C5 at a concrete headerless block. -/
theorem headerless_block_skipped_and_counted_witness :
    extract_course_header (Node.elem "div" none ["CourseDisplay"]
        [Node.text "no header here"]) = none ∧
    (parse_course (Node.elem "div" none ["CourseDisplay"]
        [Node.text "no header here"]) [] "u" = none ∧
      secondStep "u" ([], 0)
        (Node.elem "div" none ["CourseDisplay"] [Node.text "no header here"], []) = ([], 1)) :=
  ⟨by decide,
    headerless_block_skipped_and_counted
      (Node.elem "div" none ["CourseDisplay"] [Node.text "no header here"]) [] "u" [] 0
      (by decide)⟩

/-- Claim C6: the description extractor never returns text containing
"Prerequisite:" or "Recommended Preparation:" as a substring. -/
theorem description_free_of_labels (b : Node) :
    containsStr (extract_description b) "Prerequisite:" = false ∧
    containsStr (extract_description b) "Recommended Preparation:" = false := by
  unfold extract_description
  exact descFold_no_label _ "" (by decide) (by decide)

/-- Claim C9: for a fixed set of fetched pages, the first-pass count of
parseable blocks equals the number of records produced by the second
pass. -/
theorem first_pass_total_equals_record_count {ε : Type}
    (fetch : String → Except ε String) (parseHtml : String → Node) (res : RunResult)
    (h : runScrape fetch parseHtml = Except.ok res) :
    res.totalEst = res.records.length := by
  unfold runScrape at h
  cases hf : fetchPages fetch URLS with
  | error e =>
    rw [hf] at h
    exact absurd h (by simp)
  | ok pages =>
    rw [hf] at h
    simp only [Except.ok.injEq] at h
    rw [← h]
    have := foldPages_length parseHtml pages ([], 0)
    simp only [List.length_nil, Nat.zero_add] at this
    exact this.symm

/-- Witness for C9 at a concrete run. -/
theorem first_pass_total_equals_record_count_witness :
    (RunResult.mk [] 0 0).totalEst = (RunResult.mk [] 0 0).records.length :=
  first_pass_total_equals_record_count (fun _ : String => (Except.ok "" : Except Unit String))
    (fun _ => Node.text "") (RunResult.mk [] 0 0) (by rfl)

/-- Claim C10: the progress bar clamps its total to at least 1, updates
preserve the clamp, the ratio is well defined (the denominator is never
zero) and never exceeds 1, so the displayed percentage never exceeds
100. -/
theorem progress_bar_total_clamped_ratio_bounded (total width : Nat) (incs : List Nat) :
    1 ≤ (incs.foldl ProgressBar.update (ProgressBar.init total width)).total ∧
    (incs.foldl ProgressBar.update (ProgressBar.init total width)).total ≠ 0 ∧
    (incs.foldl ProgressBar.update (ProgressBar.init total width)).ratioQ ≤ 1 ∧
    (incs.foldl ProgressBar.update (ProgressBar.init total width)).ratioQ * 100 ≤ 100 := by
  have htot : ∀ (pb : ProgressBar) (l : List Nat),
      (l.foldl ProgressBar.update pb).total = pb.total := by
    intro pb l
    induction l generalizing pb with
    | nil => rfl
    | cons i rest ih => rw [List.foldl_cons, ih]; rfl
  have h1 : (incs.foldl ProgressBar.update (ProgressBar.init total width)).total
      = max total 1 := htot _ incs
  have hge : 1 ≤ max total 1 := le_max_right total 1
  have hle : (incs.foldl ProgressBar.update (ProgressBar.init total width)).ratioQ ≤ 1 :=
    min_le_right _ 1
  refine ⟨by omega, by omega, hle, ?_⟩
  calc (incs.foldl ProgressBar.update (ProgressBar.init total width)).ratioQ * 100
      ≤ 1 * 100 := by
        apply mul_le_mul_of_nonneg_right hle
        norm_num
    _ = 100 := by norm_num

/-- Claim C1: every record `parse_course` returns (rather than skipping the
block) has non-empty subject, number and title. -/
theorem parse_course_emits_nonempty_required_fields (b : Node) (anc : List Node)
    (url : String) (r : CourseRecord) (h : parse_course b anc url = some r) :
    r.subject ≠ "" ∧ r.number ≠ "" ∧ r.title ≠ "" := by
  unfold parse_course at h
  cases hh : extract_course_header b with
  | none =>
    rw [hh] at h
    exact absurd h (by simp)
  | some v =>
    obtain ⟨s, n, t⟩ := v
    rw [hh] at h
    simp only [Option.some.injEq] at h
    obtain ⟨f1, f2, f3⟩ := extract_course_header_fields hh
    rw [← h]
    exact ⟨f1, f2, f3⟩

/-- Witness for C1 at a concrete course block. -/
theorem parse_course_emits_nonempty_required_fields_witness :
    parse_course (Node.elem "div" none ["CourseDisplay"]
        [Node.elem "span" none ["CourseIdAndTitle"]
          [Node.text "XYZ 100. Intro to Things"]]) [] "u"
      = some (CourseRecord.mk "XYZ" "100" "XYZ 100" "Intro to Things" none none []
          none none none none none "" "u") ∧
    ((CourseRecord.mk "XYZ" "100" "XYZ 100" "Intro to Things" none none []
        none none none none none "" "u").subject ≠ "" ∧
      (CourseRecord.mk "XYZ" "100" "XYZ 100" "Intro to Things" none none []
        none none none none none "" "u").number ≠ "" ∧
      (CourseRecord.mk "XYZ" "100" "XYZ 100" "Intro to Things" none none []
        none none none none none "" "u").title ≠ "") :=
  ⟨by decide,
    parse_course_emits_nonempty_required_fields
      (Node.elem "div" none ["CourseDisplay"]
        [Node.elem "span" none ["CourseIdAndTitle"]
          [Node.text "XYZ 100. Intro to Things"]]) [] "u"
      (CourseRecord.mk "XYZ" "100" "XYZ 100" "Intro to Things" none none []
        none none none none none "" "u") (by decide)⟩

/-- Claim C2: a block whose course-id-and-title element carries text of the
form `SUBJECT NUMBER. Title` — subject 2–10 uppercase letters, number 1–3
digits plus up to 6 trailing alphanumerics, title non-empty and
whitespace-normalized — yields exactly that subject, number and title. -/
theorem course_header_pattern_extraction (b : Node) (s d a t : String)
    (hs2 : 2 ≤ s.data.length) (hs10 : s.data.length ≤ 10)
    (hsU : ∀ c ∈ s.data, isUpperAZ c = true)
    (hd1 : 1 ≤ d.data.length) (hd3 : d.data.length ≤ 3)
    (hdD : ∀ c ∈ d.data, isDigit09 c = true)
    (ha6 : a.data.length ≤ 6) (haA : ∀ c ∈ a.data, isAlnumUp c = true)
    (ht : t ≠ "") (htn : norm_space t = t)
    (hspan : (idTitleSpan b).map nodeText = some (s ++ " " ++ (d ++ a) ++ ". " ++ t)) :
    extract_course_header b = some (s, d ++ a, t) := by
  have htdata : normSpaceL t.data = t.data := congrArg String.data htn
  have htne : t.data ≠ [] := by
    intro hcon
    apply ht
    rw [show t = (⟨t.data⟩ : String) from rfl, hcon]
  have hthead : ∀ c, t.data.head? = some c → isSpaceCh c = false := by
    intro c hc
    exact normSpaceL_head_not_space (by rw [htdata]; exact hc)
  have htlast : ∀ c, t.data.getLast? = some c → isSpaceCh c = false := by
    intro c hc
    exact normSpaceL_getLast_not_space (by rw [htdata]; exact hc)
  cases hsp : idTitleSpan b with
  | none =>
    rw [hsp] at hspan
    exact absurd hspan (by simp)
  | some sp =>
    rw [hsp] at hspan
    simp only [Option.map_some', Option.some.injEq] at hspan
    have h0 : (s ++ " " ++ (d ++ a) ++ ". " ++ t).data
        = s.data ++ ' ' :: (d.data ++ (a.data ++ ('.' :: ' ' :: t.data))) := by
      simp only [String.data_append, List.append_assoc]
      rfl
    have hS : nodeText sp
        = ⟨s.data ++ ' ' :: (d.data ++ (a.data ++ ('.' :: ' ' :: t.data)))⟩ := by
      rw [hspan, show (s ++ " " ++ (d ++ a) ++ ". " ++ t)
        = (⟨(s ++ " " ++ (d ++ a) ++ ". " ++ t).data⟩ : String) from rfl, h0]
    have hmk := courseHeaderMatch_mk s.data d.data a.data t.data hs2 hs10 hsU hd1 hd3 hdD
      ha6 haA htne hthead htlast
    have hda : (⟨d.data ++ a.data⟩ : String) = d ++ a := by
      rw [show d ++ a = (⟨(d ++ a).data⟩ : String) from rfl, String.data_append]
    rw [show (⟨s.data⟩ : String) = s from rfl, hda,
      show (⟨t.data⟩ : String) = t from rfl] at hmk
    have hmatch : courseHeaderMatch (nodeText sp) = some (s, d ++ a, t) := by
      rw [hS]
      exact hmk
    have hstrat1 : headerStrat1 b = some (s, d ++ a, t) := by
      simp only [headerStrat1]
      rw [hsp]
      simp only [hmatch, htn]
    unfold extract_course_header
    rw [hstrat1]

/-- Witness for C2 at a concrete block and header decomposition. -/
theorem course_header_pattern_extraction_witness :
    (2 ≤ ("XYZ" : String).data.length ∧ ("XYZ" : String).data.length ≤ 10 ∧
      (∀ c ∈ ("XYZ" : String).data, isUpperAZ c = true) ∧
      1 ≤ ("100" : String).data.length ∧ ("100" : String).data.length ≤ 3 ∧
      (∀ c ∈ ("100" : String).data, isDigit09 c = true) ∧
      ("" : String).data.length ≤ 6 ∧ (∀ c ∈ ("" : String).data, isAlnumUp c = true) ∧
      ("Intro to Things" : String) ≠ "" ∧ norm_space "Intro to Things" = "Intro to Things" ∧
      (idTitleSpan (Node.elem "div" none ["CourseDisplay"]
          [Node.elem "span" none ["CourseIdAndTitle"]
            [Node.text "XYZ 100. Intro to Things"]])).map nodeText
        = some ("XYZ" ++ " " ++ ("100" ++ "") ++ ". " ++ "Intro to Things")) ∧
    extract_course_header (Node.elem "div" none ["CourseDisplay"]
        [Node.elem "span" none ["CourseIdAndTitle"]
          [Node.text "XYZ 100. Intro to Things"]])
      = some ("XYZ", "100" ++ "", "Intro to Things") :=
  ⟨⟨by decide, by decide, by decide, by decide, by decide, by decide, by decide, by decide,
    by decide, by decide, by decide⟩,
    course_header_pattern_extraction
      (Node.elem "div" none ["CourseDisplay"]
        [Node.elem "span" none ["CourseIdAndTitle"]
          [Node.text "XYZ 100. Intro to Things"]])
      "XYZ" "100" "" "Intro to Things"
      (by decide) (by decide) (by decide) (by decide) (by decide) (by decide)
      (by decide) (by decide) (by decide) (by decide) (by decide)⟩

/-- Claim C3: `parse_units_and_instructors` behaves exactly as the spec
describes — absent span means no units and no instructors; a leading
parenthesized group is the units string with the remainder the instructor
text, else the whole text is instructor text; "STAFF" (case-insensitive)
gives `["STAFF"]`, any other non-empty text is split on semicolons,
trimmed, empties dropped, order preserved. -/
theorem units_and_instructors_follow_spec (b : Node) :
    parse_units_and_instructors b = specUnitsAndInstructors b := by
  cases hsp : instrSpan b with
  | none => simp only [parse_units_and_instructors, specUnitsAndInstructors, hsp]
  | some sp =>
    simp only [parse_units_and_instructors, specUnitsAndInstructors, hsp]
    have htidy : tidyL (nodeText sp).data := nodeText_tidy sp
    rw [parenPrefixMatch_eq]
    cases hg : parenGroupSplit (nodeText sp).data with
    | none =>
      simp only [Option.map_none']
      rw [instructorList_eq_spec htidy]
    | some p =>
      obtain ⟨content, after⟩ := p
      obtain ⟨hci, hai⟩ := parenGroupSplit_frag hg
      simp only [Option.map_some']
      have h1 : norm_space (⟨content⟩ : String) = pyStrip ⟨content⟩ :=
        (pyStrip_mk_eq_norm (tidyL_frag htidy hci)).symm
      have h2 : norm_space (⟨after.dropWhile isSpaceCh⟩ : String) = pyStrip ⟨after⟩ := by
        rw [norm_space_mk_dropWhile]
        exact (pyStrip_mk_eq_norm (tidyL_frag htidy hai)).symm
      have h3 : tidyL (pyStrip (⟨after⟩ : String)).data := by
        show tidyL (pyStripL after)
        rw [pyStripL_of_tidy (tidyL_frag htidy hai)]
        exact tidyL_normSpaceL after
      rw [h1, h2, instructorList_eq_spec h3]

/-- The counterexample block for C7: the preferred container is absent, a
`span` holds the longest qualifying text, and the only nested `div` holds
a shorter one. -/
def c7Block : Node := Node.elem "div" none ["CourseDisplay"] [
  Node.elem "span" none [] [Node.text "A long description held by a span element"],
  Node.elem "div" none [] [Node.text "short div text"]]

/-- Counterexample to claim C7 as stated: the description extractor does
not examine every nested text-bearing sub-element — on `c7Block` it
returns the longest nested `div` text, not the longest text over all
sub-elements. -/
theorem description_subelement_claim_false :
    extract_description c7Block ≠ specDescriptionSubElems c7Block := by decide

/-- Claim C7 amended (the extractor examines every nested `div`
sub-element rather than every text-bearing sub-element): within the
preferred inner container, or the whole block when that container is
absent, the longest qualifying normalized `div` text is returned, the
earliest kept on ties of length, and the empty string when none
qualify. -/
theorem description_is_longest_div_text (b : Node) :
    extract_description b = specDescriptionDivs b := by
  unfold extract_description specDescriptionDivs
  rw [foldl_descStep_filter, foldl_maxStep_firstMax]
  by_cases h : ("" : String).length
      < (firstMax (((findAll (isElemNamed "div") (containerOf b)).map nodeText).filter
        descQual)).length
  · rw [if_pos h]
  · rw [if_neg h]
    have hz : (firstMax (((findAll (isElemNamed "div") (containerOf b)).map nodeText).filter
        descQual)).length = 0 := by
      have : ("" : String).length = 0 := rfl
      omega
    exact (string_length_zero hz).symm

/-- Claim C8: labeled-field extraction stores, for each canonical field,
the whitespace-normalized sibling text collected at its matching
bold-label elements (the canonical mapping merging the singular/plural and
hyphenated/unhyphenated label spellings), and leaves missing labels
absent. -/
theorem labeled_fields_follow_spec (b : Node) :
    extract_labeled_fields b = specLabeledFields b := by
  have hget : ∀ k, (extract_labeled_fields b).get k = (specLabeledFields b).get k := by
    intro k
    unfold extract_labeled_fields
    rw [labeled_fold_get]
    cases hx : (collectedFor k (strongsWithSibs b)).getLast? with
    | some v => cases k <;> simp [specLabeledFields, LabeledFields.get, hx]
    | none => cases k <;> simp [specLabeledFields, LabeledFields.get, emptyLabeled, hx]
  have e1 := hget FieldKey.prereqK
  have e2 := hget FieldKey.recPrepK
  have e3 := hget FieldKey.enrollK
  have e4 := hget FieldKey.repeatK
  have e5 := hget FieldKey.crossK
  cases hE : extract_labeled_fields b with
  | mk a1 a2 a3 a4 a5 =>
    cases hS : specLabeledFields b with
    | mk b1 b2 b3 b4 b5 =>
      rw [hE, hS] at e1 e2 e3 e4 e5
      simp only [LabeledFields.get] at e1 e2 e3 e4 e5
      rw [e1, e2, e3, e4, e5]
